import Mathlib

/-!
# Addressing and scheduling core of the staircase-code encoder templates

Shallow embedding of `gsc-simple-enc-template.c` (basic variant, Golomb ruler)
and `hosc-simple-enc-template.c` (generalized variant, difference triangle sets).

Conventions of the embedding.

* C integers are modelled by `Int` with exact arithmetic; the C operators `/`
  and `%` on signed integers truncate toward zero and are `Int.tdiv` and
  `Int.tmod`.  The model agrees with the compiled programs whenever every
  intermediate value fits its machine type, which is the case for every
  parameter set whose history buffer fits in memory.
* The preprocessor constants (`M`, `GOLOMB`, `MEMORY`, `S`, resp. `L`, `M`,
  `DTS`, `SCOPE`, `T`) are the fields of a parameter record, so that the
  functions can be studied for every parameter set; `gsc.compiled` and
  `hosc.compiled` are the values written in the sources.
* The global `enc_buffer` is a map from (row, column) to the stored `uint32_t`
  value, the global `NewestRow` is an integer; both are the fields of
  `EncState`.
* The two `main` functions differ only in their constants and are one
  definition over a record `Template`.  The output is the list of printed lines,
  each line being the list of the values passed to `printf`; `data_label` is a
  natural number (the labels of a run that fits the machine type do not
  overflow).
-/

namespace Staircase

/-! ## Shared definitions -/

/-- Read of a C `int` array at an integer index.  Reads outside the array are
undefined in C; the model returns `0` for them. -/
def arr (a : List Int) (k : Int) : Int :=
  a.getD k.toNat 0

/-- Read of a two-dimensional C `int` array, `a[r][k]`. -/
def arr2 (a : List (List Int)) (r k : Int) : Int :=
  arr (a.getD r.toNat []) k

/-- Forward intra-tile permutation, row part: `k == 0 ? i : j`
(identical in both sources). -/
def pi_row (i j k : Int) : Int :=
  if k = 0 then i else j

/-- Forward intra-tile permutation, column part:
`k == 0 ? j : (i+(k-1)*j)%N`, where the tile size `N` is `S` in the basic
source and `T` in the generalized one. -/
def pi_col (N i j k : Int) : Int :=
  if k = 0 then j else Int.tmod (i + (k - 1) * j) N

/-- The list `a` is strictly increasing and starts at `0`. -/
def IncreasingFromZero (a : List Int) : Prop :=
  a.head? = some 0 ∧ a.Pairwise (fun x y => x < y)

instance (a : List Int) : Decidable (IncreasingFromZero a) := by
  unfold IncreasingFromZero; infer_instance

/-! ## Basic variant (`gsc-simple-enc-template.c`) -/

/-- The parameter block of the basic source: `M`, `GOLOMB`, `MEMORY`, `S`. -/
structure GscParams where
  M : Int
  GOLOMB : List Int
  MEMORY : Int
  S : Int

namespace gsc

/-- The values written in the source: `M = 2`, `GOLOMB = {0, 1, 3}`,
`MEMORY = 3`, `S = 3`. -/
def compiled : GscParams :=
  { M := 2, GOLOMB := [0, 1, 3], MEMORY := 3, S := 3 }

/-- The requirements stated in the source comment: `GOLOMB` is an array of
`M+1` distinct increasing integers starting at 0, `MEMORY` is its maximum
element; moreover the tile size is positive. -/
def Valid (p : GscParams) : Prop :=
  1 ≤ p.S ∧ (p.GOLOMB.length : Int) = p.M + 1 ∧ IncreasingFromZero p.GOLOMB ∧
    p.MEMORY ∈ p.GOLOMB ∧ ∀ x ∈ p.GOLOMB, x ≤ p.MEMORY

instance (p : GscParams) : Decidable (Valid p) := by
  unfold Valid; infer_instance

/-- Number of buffered rows, `#define Q ((1+MEMORY)*S-1)`. -/
def Q (p : GscParams) : Int :=
  (1 + p.MEMORY) * p.S - 1

/-- How many rows to look back in the encoder buffer, for row `i` and prepend
position `j`. -/
def past_row_lookback (p : GscParams) (i j : Int) : Int :=
  let perm := p.M - Int.tdiv j p.S
  let j_block := Int.tmod j p.S
  arr p.GOLOMB perm * p.S - pi_row i j_block perm + i

/-- Position within the past row to copy from. -/
def past_col (p : GscParams) (i j : Int) : Int :=
  let perm := p.M - Int.tdiv j p.S
  let j_block := Int.tmod j p.S
  pi_col p.S i j_block perm

end gsc

/-! ## Generalized variant (`hosc-simple-enc-template.c`) -/

/-- The parameter block of the generalized source: `L`, `M`, `DTS`, `SCOPE`,
`T`. -/
structure HoscParams where
  L : Int
  M : Int
  DTS : List (List Int)
  SCOPE : Int
  T : Int

namespace hosc

/-- The values written in the source: `L = 2`, `M = 2`,
`DTS = {{0,2,7},{0,3,4}}`, `SCOPE = 7`, `T = 2`. -/
def compiled : HoscParams :=
  { L := 2, M := 2, DTS := [[0, 2, 7], [0, 3, 4]], SCOPE := 7, T := 2 }

/-- The requirements on the parameter block: `DTS` is an `L x (M+1)` array,
each row contains increasing integers starting at 0, `SCOPE` is the maximum
element across all rows; moreover the tile size is positive.  (The descending
order of the rows by maximum element, also asked for by the source comment, is
not needed by any result below and is left out.) -/
def Valid (p : HoscParams) : Prop :=
  1 ≤ p.T ∧ (p.DTS.length : Int) = p.L ∧
    (∀ row ∈ p.DTS, (row.length : Int) = p.M + 1 ∧ IncreasingFromZero row) ∧
    (∃ row ∈ p.DTS, p.SCOPE ∈ row) ∧ ∀ row ∈ p.DTS, ∀ x ∈ row, x ≤ p.SCOPE

instance (p : HoscParams) : Decidable (Valid p) := by
  unfold Valid; infer_instance

/-- Row width, `#define LT (L*T)`. -/
def LT (p : HoscParams) : Int :=
  p.L * p.T

/-- Number of buffered rows, `#define Q ((1+SCOPE)*T-1)`. -/
def Q (p : HoscParams) : Int :=
  (1 + p.SCOPE) * p.T - 1

/-- How many rows to look back in the encoder buffer, for row `i` and prepend
position `j`. -/
def past_row_lookback (p : HoscParams) (i j : Int) : Int :=
  let j_rect := Int.tmod j (LT p)
  let perm := p.M - Int.tdiv j (LT p)
  let j_block := Int.tmod j_rect p.T
  let cls := p.L - 1 - Int.tdiv j_rect p.T
  arr2 p.DTS cls perm * p.T - pi_row i j_block perm + i

/-- Position within the past row to copy from. -/
def past_col (p : HoscParams) (i j : Int) : Int :=
  let j_rect := Int.tmod j (LT p)
  let perm := p.M - Int.tdiv j (LT p)
  let j_block := Int.tmod j_rect p.T
  let c_class := Int.tdiv j_rect p.T
  c_class * p.T + pi_col p.T i j_block perm

end hosc

/-! ## History buffer (the same in both sources, up to the row width)

`Q` is the number of buffered rows and `W` the row width (`S` in the basic
source, `L*T` in the generalized one). -/

/-- The globals `enc_buffer` (a map from row and column to the stored
`uint32_t` value) and `NewestRow`. -/
structure EncState where
  enc_buffer : Int → Int → Nat
  NewestRow : Int

/-- The state after `memset(enc_buffer, 0, ...)` and `NewestRow = 0`. -/
def init_state : EncState :=
  { enc_buffer := fun _ _ => 0, NewestRow := 0 }

/-- The cursor after `if (++NewestRow >= Q) NewestRow = 0;`. -/
def advance (Q nr : Int) : Int :=
  if nr + 1 ≥ Q then 0 else nr + 1

/-- The buffer after the assignment `enc_buffer[r][c] = v`. -/
def set_cell (buf : Int → Int → Nat) (r c : Int) (v : Nat) : Int → Int → Nat :=
  fun r1 c1 => if r1 = r ∧ c1 = c then v else buf r1 c1

/-- The buffer after the loop `for (j = 0; j < W; j++) enc_buffer[r][j] = vals j`. -/
def store_row (W : Int) (buf : Int → Int → Nat) (r : Int) (vals : Int → Nat) :
    Int → Int → Nat :=
  (List.range W.toNat).foldl (fun b (j : Nat) => set_cell b r (j : Int) (vals (j : Int))) buf

/-- The buffer row used by a read at lookback distance `d`:
`(NewestRow+1-d+Q)%Q`. -/
def read_row (Q nr d : Int) : Int :=
  Int.tmod (nr + 1 - d + Q) Q

/-- The read `enc_buffer[(NewestRow+1-d+Q)%Q][c]`. -/
def read_at (Q : Int) (st : EncState) (d c : Int) : Nat :=
  st.enc_buffer (read_row Q st.NewestRow d) c

/-- One write as the scheduler performs it: advance the cursor modulo `Q`, then
store the `W` values `vals 0, ..., vals (W-1)` in the row under the cursor. -/
def write (Q W : Int) (st : EncState) (vals : Int → Nat) : EncState :=
  let nr := advance Q st.NewestRow
  { enc_buffer := store_row W st.enc_buffer nr vals, NewestRow := nr }

/-- The state reached from the initial state by writing the given rows, first
row first. -/
def writes (Q W : Int) (rows : List (Int → Nat)) : EncState :=
  rows.foldl (write Q W) init_state

/-- A row of consecutive labels starting at `start`, as the scheduler produces
them (`data_label`, `data_label + 1`, ...). -/
def labels (start : Nat) : Int → Nat :=
  fun c => start + c.toNat

/-! ## Inverse tile permutation (commented out in both sources) -/

/-- Inverse intra-tile permutation, row part, as written in the source comment:
`k == 0 ? i : ((N-(k-1))*i + j)%N`, with `N = S` resp. `N = T`. -/
def pi_inv_row (N i j k : Int) : Int :=
  if k = 0 then i else Int.tmod ((N - (k - 1)) * i + j) N

/-- Inverse intra-tile permutation, column part, as written in the source
comment: `k == 0 ? j : i`. -/
def pi_inv_col (i j k : Int) : Int :=
  if k = 0 then j else i

/-! ## Encoding scheduler (`main`, the same in both sources up to the constants) -/

/-- The constants and functions in which the two `main` functions differ:
number of buffered rows `Q`, row width `W` (bound of the append loop), prepend
length `P` (bound of the prepend loop), rows per block `N` (bound of the loop
over `i`), and the address calculator. -/
structure Template where
  Q : Int
  W : Int
  P : Int
  N : Int
  lookback : Int → Int → Int
  col : Int → Int → Int

/-- The variables of `main`: the buffer with its cursor, `data_label`, and the
rows printed so far (each row is the list of the values printed on one line). -/
structure Sched where
  st : EncState
  data_label : Nat
  out : List (List Nat)

/-- The start of `main`: zeroed buffer, `NewestRow = 0`, `data_label = 1`,
nothing printed. -/
def Sched.start : Sched :=
  { st := init_state, data_label := 1, out := [] }

/-- The values printed by the prepend loop of row `i`:
`enc_buffer[(NewestRow+1-past_row_lookback(i,j)+Q)%Q][past_col(i,j)]` for
`j = 0, ..., P-1`. -/
def prepend_part (t : Template) (st : EncState) (i : Int) : List Nat :=
  (List.range t.P.toNat).map
    (fun (j : Nat) => read_at t.Q st (t.lookback i (j : Int)) (t.col i (j : Int)))

/-- The append loop of one row, at the advanced cursor `nr`: for
`j = 0, ..., W-1` store `data_label` in `enc_buffer[nr][j]`, print that cell and
increment `data_label`.  The result is the buffer, `data_label` and the printed
values. -/
def append_part (W : Int) (buf : Int → Int → Nat) (nr : Int) (data_label : Nat) :
    (Int → Int → Nat) × Nat × List Nat :=
  (List.range W.toNat).foldl
    (fun (s : (Int → Int → Nat) × Nat × List Nat) (j : Nat) =>
      (set_cell s.1 nr (j : Int) s.2.1, s.2.1 + 1,
        s.2.2 ++ [set_cell s.1 nr (j : Int) s.2.1 nr (j : Int)]))
    (buf, data_label, [])

/-- The body of the loop over `i`: print the prepended part, advance the cursor,
run the append loop, end the line. -/
def encode_row (t : Template) (s : Sched) (i : Int) : Sched :=
  let pre := prepend_part t s.st i
  let nr := advance t.Q s.st.NewestRow
  let a := append_part t.W s.st.enc_buffer nr s.data_label
  { st := { enc_buffer := a.1, NewestRow := nr }, data_label := a.2.1,
    out := s.out ++ [pre ++ a.2.2] }

/-- The loop `for (i = 0; i < N; i++)` encoding the rows of one block. -/
def encode_block (t : Template) (s : Sched) : Sched :=
  (List.range t.N.toNat).foldl (fun s (i : Nat) => encode_row t s (i : Int)) s

/-- The loop `for (count = 0; count < blocks; count++)` from the start of `main`. -/
def run (t : Template) (blocks : Nat) : Sched :=
  (List.range blocks).foldl (fun s _ => encode_block t s) Sched.start

/-- The state of `main` after its first `n` executions of the body of the loop
over `i`, counted through the blocks: execution number `m` encodes row
`i = m % N` of block `m / N`. -/
def row_steps (t : Template) (n : Nat) : Sched :=
  (List.range n).foldl (fun s (m : Nat) => encode_row t s ((m % t.N.toNat : Nat) : Int))
    Sched.start

/-- The constants of the basic source. -/
def gsc.template (p : GscParams) : Template :=
  { Q := gsc.Q p, W := p.S, P := p.M * p.S, N := p.S,
    lookback := gsc.past_row_lookback p, col := gsc.past_col p }

/-- The `main` of the basic source: `MEMORY+3` blocks. -/
def gsc.main (p : GscParams) : Sched :=
  run (gsc.template p) (p.MEMORY + 3).toNat

/-- The constants of the generalized source. -/
def hosc.template (p : HoscParams) : Template :=
  { Q := hosc.Q p, W := p.L * p.T, P := p.M * p.L * p.T, N := p.T,
    lookback := hosc.past_row_lookback p, col := hosc.past_col p }

/-- The `main` of the generalized source: `SCOPE+3` blocks. -/
def hosc.main (p : HoscParams) : Sched :=
  run (hosc.template p) (p.SCOPE + 3).toNat

/-- The value of the read expression
`enc_buffer[(NewestRow+1-d+Q)%Q][c]` for a buffer of `Q` rows of width `W`:
`some v` when both indices are inside the array, `none` when an index is
outside (undefined behaviour in C).  The sources contain no other check. -/
def read_result (Q W : Int) (st : EncState) (d c : Int) : Option Nat :=
  if 0 ≤ read_row Q st.NewestRow d ∧ read_row Q st.NewestRow d < Q ∧ 0 ≤ c ∧ c < W then
    some (read_at Q st d c)
  else none

/-- The local variable `perm` of the basic address calculator. -/
def gsc.perm (p : GscParams) (j : Int) : Int :=
  p.M - Int.tdiv j p.S

/-- The local variable `j_block` of the basic address calculator. -/
def gsc.j_block (p : GscParams) (j : Int) : Int :=
  Int.tmod j p.S

/-- The local variable `perm` of the generalized address calculator. -/
def hosc.perm (p : HoscParams) (j : Int) : Int :=
  p.M - Int.tdiv j (hosc.LT p)

/-- The local variable `j_block` of the generalized address calculator. -/
def hosc.j_block (p : HoscParams) (j : Int) : Int :=
  Int.tmod (Int.tmod j (hosc.LT p)) p.T

/-- The local variable `c_class` of `past_col`. -/
def hosc.c_class (p : HoscParams) (j : Int) : Int :=
  Int.tdiv (Int.tmod j (hosc.LT p)) p.T

/-- The generalized parameter block with one class that the specification
associates with a basic parameter block: `L = 1`, `T = S`, `DTS = [GOLOMB]`,
`SCOPE = MEMORY`. -/
def hosc.of_gsc (p : GscParams) : HoscParams :=
  { L := 1, M := p.M, DTS := [p.GOLOMB], SCOPE := p.MEMORY, T := p.S }

/-! ## Formulas of the specification that are compared with the code -/

/-- The class index `L-1-j_rect/T` with which `past_row_lookback` selects the
row of `DTS`. -/
def hosc.dts_class (p : HoscParams) (j : Int) : Int :=
  p.L - 1 - Int.tdiv (Int.tmod j (hosc.LT p)) p.T

/-- The column as section 4.2 of the specification words it for the generalized
variant: `dtsClass × tileSize + permCol(i, jBlock, permIndex)` with
`jRect = j mod (L×tileSize)`, `permIndex = M − j / (L×tileSize)`,
`jBlock = jRect mod tileSize`, `dtsClass = (L − 1) − jRect / tileSize`. -/
def hosc.spec_column (p : HoscParams) (i j : Int) : Int :=
  let jRect := Int.tmod j (p.L * p.T)
  let permIndex := p.M - Int.tdiv j (p.L * p.T)
  let jBlock := Int.tmod jRect p.T
  let dtsClass := (p.L - 1) - Int.tdiv jRect p.T
  dtsClass * p.T + pi_col p.T i jBlock permIndex

/-- The inverse tile permutation as section 4.1 of the specification words it,
applied to the cell `(r, c)`: `row' = r`,
`col' = ((tileSize − (k−1))×r + c) mod tileSize` when `k ≥ 1`, identity when
`k = 0`.  The result is the pair `(row', col')`; `mod` is the mathematical
remainder. -/
def spec_inverse (N k r c : Int) : Int × Int :=
  if k = 0 then (r, c) else (r, ((N - (k - 1)) * r + c) % N)

/-- The formula of `spec_inverse` with its two components exchanged:
`row' = ((tileSize − (k−1))×r + c) mod tileSize`, `col' = r` when `k ≥ 1`,
identity when `k = 0`. -/
def spec_inverse_exchanged (N k r c : Int) : Int × Int :=
  if k = 0 then (r, c) else (((N - (k - 1)) * r + c) % N, r)

/-! ## Closed forms used to describe the runs of the scheduler -/

/-- The rows stored by the first `n` row encodings: row number `m` (counted from
0) holds the labels `m*W+1, ..., (m+1)*W`. -/
def label_rows (W : Int) (n : Nat) : List (Int → Nat) :=
  (List.range n).map (fun (m : Nat) => labels (m * W.toNat + 1))

/-- The line printed by row encoding number `m` (counted from 0): the prepended
part read from the buffer holding the rows `0, ..., m-1`, then the labels of row
`m`. -/
def printed_row (t : Template) (m : Nat) : List Nat :=
  prepend_part t (writes t.Q t.W (label_rows t.W m)) ((m % t.N.toNat : Nat) : Int)
    ++ (List.range t.W.toNat).map (fun (j : Nat) => m * t.W.toNat + 1 + j)

/-! ## Auxiliary facts on array reads and truncating division -/

theorem arr_eq_getElem (a : List Int) (k : Nat) (hk : k < a.length) :
    arr a (k : Int) = a[k] := by
  simp [arr, List.getElem?_eq_getElem hk]

theorem arr_toNat (a : List Int) (k : Int) (hk0 : 0 ≤ k) (hk : k < a.length) :
    ∃ h : k.toNat < a.length, arr a k = a[k.toNat] := by
  have h : k.toNat < a.length := by omega
  refine ⟨h, ?_⟩
  have := arr_eq_getElem a k.toNat h
  rwa [Int.toNat_of_nonneg hk0] at this

theorem arr_mem (a : List Int) (k : Int) (hk0 : 0 ≤ k) (hk : k < a.length) :
    arr a k ∈ a := by
  obtain ⟨h, e⟩ := arr_toNat a k hk0 hk
  rw [e]; exact List.getElem_mem h

theorem arr_zero (a : List Int) (ha : IncreasingFromZero a) : arr a 0 = 0 := by
  rcases a with _ | ⟨x, t⟩
  · simp [arr]
  · have := ha.1
    simp at this
    simp [arr, this]

theorem arr_lt (a : List Int) (ha : IncreasingFromZero a) (k1 k2 : Int)
    (h0 : 0 ≤ k1) (h12 : k1 < k2) (h2 : k2 < a.length) : arr a k1 < arr a k2 := by
  obtain ⟨h1, e1⟩ := arr_toNat a k1 h0 (by omega)
  obtain ⟨h2, e2⟩ := arr_toNat a k2 (by omega) h2
  rw [e1, e2]
  exact (List.pairwise_iff_getElem.mp ha.2) _ _ h1 h2 (by omega)

theorem arr_inj (a : List Int) (ha : IncreasingFromZero a) (k1 k2 : Int)
    (h1 : 0 ≤ k1) (h1l : k1 < a.length) (h2 : 0 ≤ k2) (h2l : k2 < a.length)
    (e : arr a k1 = arr a k2) : k1 = k2 := by
  rcases lt_trichotomy k1 k2 with h | h | h
  · have := arr_lt a ha k1 k2 h1 h h2l; omega
  · exact h
  · have := arr_lt a ha k2 k1 h2 h h1l; omega

theorem arr_pos (a : List Int) (ha : IncreasingFromZero a) (k : Int)
    (h1 : 1 ≤ k) (h2 : k < a.length) : 1 ≤ arr a k := by
  have := arr_lt a ha 0 k le_rfl (by omega) h2
  rw [arr_zero a ha] at this
  omega

theorem arr2_row (a : List (List Int)) (r : Int) (h0 : 0 ≤ r) (h1 : r < a.length) :
    a.getD r.toNat [] ∈ a := by
  have h : r.toNat < a.length := by omega
  rw [List.getD_eq_getElem _ _ h]
  exact List.getElem_mem h

theorem tmod_range (j N : Int) (hj : 0 ≤ j) (hN : 0 < N) :
    0 ≤ Int.tmod j N ∧ Int.tmod j N < N :=
  ⟨Int.tmod_nonneg N hj, Int.tmod_lt_of_pos j hN⟩

theorem tdiv_range (j N K : Int) (hj : 0 ≤ j) (hN : 0 < N) (hK : j < K * N) :
    0 ≤ Int.tdiv j N ∧ Int.tdiv j N < K := by
  refine ⟨Int.tdiv_nonneg hj hN.le, ?_⟩
  have h1 := Int.tmod_add_tdiv j N
  have h2 := Int.tmod_nonneg N hj
  by_contra hc
  push_neg at hc
  have : K * N ≤ Int.tdiv j N * N := by nlinarith
  nlinarith

theorem tdiv_tmod_unique (N q1 r1 q2 r2 : Int) (h1 : 0 ≤ r1) (h1N : r1 < N)
    (h2 : 0 ≤ r2) (h2N : r2 < N) (e : q1 * N + r1 = q2 * N + r2) :
    q1 = q2 ∧ r1 = r2 := by
  have hq : q1 = q2 := by
    rcases lt_trichotomy q1 q2 with h | h | h
    · have : (q1 + 1) * N ≤ q2 * N := by nlinarith
      nlinarith
    · exact h
    · have : (q2 + 1) * N ≤ q1 * N := by nlinarith
      nlinarith
  subst hq
  exact ⟨rfl, by linarith⟩

/-! ## Decomposition of a prepend position -/

/-- The quantities computed from a prepend position `j` in the basic address
calculator are in range: `perm` in `[1, M]`, `j_block` in `[0, S)`. -/
theorem gsc_split (p : GscParams) (hS : 1 ≤ p.S) (j : Int) (hj0 : 0 ≤ j)
    (hj : j < p.M * p.S) :
    1 ≤ p.M - Int.tdiv j p.S ∧ p.M - Int.tdiv j p.S ≤ p.M ∧
      0 ≤ Int.tmod j p.S ∧ Int.tmod j p.S < p.S := by
  have h1 := tdiv_range j p.S p.M hj0 (by omega) hj
  have h2 := tmod_range j p.S hj0 (by omega)
  omega

/-- The quantities computed from a prepend position `j` in the generalized
address calculator are in range. -/
theorem hosc_split (p : HoscParams) (hT : 1 ≤ p.T) (hL : 0 ≤ p.L) (j : Int)
    (hj0 : 0 ≤ j) (hj : j < p.M * p.L * p.T) :
    1 ≤ p.M - Int.tdiv j (hosc.LT p) ∧ p.M - Int.tdiv j (hosc.LT p) ≤ p.M ∧
      0 ≤ Int.tmod (Int.tmod j (hosc.LT p)) p.T ∧
      Int.tmod (Int.tmod j (hosc.LT p)) p.T < p.T ∧
      0 ≤ Int.tdiv (Int.tmod j (hosc.LT p)) p.T ∧
      Int.tdiv (Int.tmod j (hosc.LT p)) p.T < p.L := by
  have hLT : 0 < hosc.LT p := by
    unfold hosc.LT
    rcases hL.lt_or_eq with h | h
    · positivity
    · rw [← h] at hj; simp at hj; omega
  have hj2 : j < p.M * hosc.LT p := by unfold hosc.LT; linarith [mul_assoc p.M p.L p.T]
  have h1 := tdiv_range j (hosc.LT p) p.M hj0 hLT hj2
  have h2 := tmod_range j (hosc.LT p) hj0 hLT
  have h3 := tmod_range (Int.tmod j (hosc.LT p)) p.T h2.1 (by omega)
  have h4 := tdiv_range (Int.tmod j (hosc.LT p)) p.T p.L h2.1 (by omega) h2.2
  omega

/-- Range of the column part of the tile permutation for a shear index. -/
theorem pi_col_range (N i j k : Int) (hN : 1 ≤ N) (hi : 0 ≤ i) (hj : 0 ≤ j)
    (hjN : j < N) (hk : 0 ≤ k) : 0 ≤ pi_col N i j k ∧ pi_col N i j k < N := by
  unfold pi_col
  split
  · exact ⟨hj, hjN⟩
  · have : 0 ≤ i + (k - 1) * j := by
      have : 0 ≤ (k - 1) * j := mul_nonneg (by omega) hj
      omega
    exact tmod_range _ N this (by omega)

/-! ## Auxiliary facts on the history buffer -/

theorem store_row_apply (W : Int) (buf : Int → Int → Nat) (r : Int) (vals : Int → Nat)
    (r1 c1 : Int) :
    store_row W buf r vals r1 c1
      = if r1 = r ∧ 0 ≤ c1 ∧ c1 < W then vals c1 else buf r1 c1 := by
  have key : ∀ n : Nat, (List.range n).foldl
      (fun b (j : Nat) => set_cell b r (j : Int) (vals (j : Int))) buf r1 c1
      = if r1 = r ∧ 0 ≤ c1 ∧ c1 < (n : Int) then vals c1 else buf r1 c1 := by
    intro n
    induction n with
    | zero =>
      have : ¬ (r1 = r ∧ 0 ≤ c1 ∧ c1 < ((0 : Nat) : Int)) := by omega
      rw [if_neg this]
      rfl
    | succ n ih =>
      rw [List.range_succ, List.foldl_append]
      simp only [List.foldl_cons, List.foldl_nil, set_cell]
      rw [ih]
      by_cases h1 : r1 = r ∧ c1 = (n : Int)
      · have h2 : r1 = r ∧ 0 ≤ c1 ∧ c1 < ((n + 1 : Nat) : Int) := by omega
        rw [if_pos h1, if_pos h2, h1.2]
      · rw [if_neg h1]
        by_cases h2 : r1 = r ∧ 0 ≤ c1 ∧ c1 < (n : Int)
        · have h3 : r1 = r ∧ 0 ≤ c1 ∧ c1 < ((n + 1 : Nat) : Int) := by omega
          rw [if_pos h2, if_pos h3]
        · have h3 : ¬ (r1 = r ∧ 0 ≤ c1 ∧ c1 < ((n + 1 : Nat) : Int)) := by omega
          rw [if_neg h2, if_neg h3]
  unfold store_row
  rw [key]
  by_cases h : r1 = r ∧ 0 ≤ c1 ∧ c1 < W
  · have h2 : r1 = r ∧ 0 ≤ c1 ∧ c1 < (W.toNat : Int) := by omega
    rw [if_pos h, if_pos h2]
  · have h2 : ¬ (r1 = r ∧ 0 ≤ c1 ∧ c1 < (W.toNat : Int)) := by omega
    rw [if_neg h, if_neg h2]

theorem read_row_eq (Q nr d : Int) (h0 : 0 ≤ nr) (hQ : nr < Q) (hd1 : 1 ≤ d)
    (hdQ : d ≤ Q) :
    read_row Q nr d = if d ≤ nr + 1 then nr + 1 - d else nr + 1 - d + Q := by
  unfold read_row
  rw [Int.tmod_eq_emod (by omega) (by omega)]
  split
  · rw [Int.add_emod_self]
    exact Int.emod_eq_of_lt (by omega) (by omega)
  · exact Int.emod_eq_of_lt (by omega) (by omega)

theorem advance_range (Q nr : Int) (hQ : 1 ≤ Q) (h0 : 0 ≤ nr) :
    0 ≤ advance Q nr ∧ advance Q nr < Q := by
  unfold advance
  split <;> omega

theorem writes_snoc (Q W : Int) (rows : List (Int → Nat)) (x : Int → Nat) :
    writes Q W (rows ++ [x]) = write Q W (writes Q W rows) x := by
  simp [writes, List.foldl_append]

theorem writes_cursor_range (Q W : Int) (hQ : 1 ≤ Q) (rows : List (Int → Nat)) :
    0 ≤ (writes Q W rows).NewestRow ∧ (writes Q W rows).NewestRow < Q := by
  induction rows using List.reverseRecOn with
  | nil => simp [writes, init_state]; omega
  | append_singleton rows x ih =>
    rw [writes_snoc]
    exact advance_range Q _ hQ ih.1

/-- The invariant behind the read expression: after the writes `rows`, the row
read at lookback distance `d` holds the `d`-th most recent row. -/
theorem writes_read_invariant (Q W : Int) (hQ : 1 ≤ Q) (rows : List (Int → Nat)) :
    ∀ d : Nat, 1 ≤ d → (d : Int) ≤ Q → ∀ r, rows.reverse[d - 1]? = some r →
      ∀ c : Int, 0 ≤ c → c < W → read_at Q (writes Q W rows) d c = r c := by
  induction rows using List.reverseRecOn with
  | nil => intro d _ _ r hr; simp at hr
  | append_singleton rows x ih =>
    intro d hd1 hdQ r hr c hc0 hcW
    have hcur := writes_cursor_range Q W hQ rows
    have hadv := advance_range Q (writes Q W rows).NewestRow hQ hcur.1
    rw [writes_snoc]
    simp only [read_at, write]
    rw [store_row_apply, read_row_eq Q _ d hadv.1 hadv.2 (by omega) hdQ]
    rw [List.reverse_append, List.reverse_singleton, List.singleton_append] at hr
    rcases Nat.eq_or_lt_of_le hd1 with h | h
    · subst h
      simp only [le_refl, Nat.sub_self, List.getElem?_cons_zero, Option.some.injEq] at hr
      subst hr
      have e : (if ((1 : Nat) : Int) ≤ advance Q (writes Q W rows).NewestRow + 1 then
          advance Q (writes Q W rows).NewestRow + 1 - ((1 : Nat) : Int)
          else advance Q (writes Q W rows).NewestRow + 1 - ((1 : Nat) : Int) + Q)
          = advance Q (writes Q W rows).NewestRow := by
        split <;> omega
      rw [e, if_pos ⟨rfl, hc0, hcW⟩]
    · obtain ⟨m, rfl⟩ : ∃ m, d = m + 2 := ⟨d - 2, by omega⟩
      have hr2 : rows.reverse[m + 1 - 1]? = some r := by
        simpa using hr
      have hprev := ih (m + 1) (by omega) (by omega) r hr2 c hc0 hcW
      simp only [read_at] at hprev
      rw [read_row_eq Q _ ((m + 1 : Nat) : Int) hcur.1 hcur.2 (by omega) (by omega)] at hprev
      have e : (if ((m + 2 : Nat) : Int) ≤ advance Q (writes Q W rows).NewestRow + 1 then
          advance Q (writes Q W rows).NewestRow + 1 - ((m + 2 : Nat) : Int)
          else advance Q (writes Q W rows).NewestRow + 1 - ((m + 2 : Nat) : Int) + Q)
          = (if ((m + 1 : Nat) : Int) ≤ (writes Q W rows).NewestRow + 1 then
            (writes Q W rows).NewestRow + 1 - ((m + 1 : Nat) : Int)
            else (writes Q W rows).NewestRow + 1 - ((m + 1 : Nat) : Int) + Q) := by
        unfold advance
        split_ifs <;> omega
      have ne : ¬ ((if ((m + 1 : Nat) : Int) ≤ (writes Q W rows).NewestRow + 1 then
            (writes Q W rows).NewestRow + 1 - ((m + 1 : Nat) : Int)
            else (writes Q W rows).NewestRow + 1 - ((m + 1 : Nat) : Int) + Q)
          = advance Q (writes Q W rows).NewestRow ∧ 0 ≤ c ∧ c < W) := by
        unfold advance
        split_ifs <;> omega
      rw [e, if_neg ne]
      exact hprev

theorem writes_cursor (Q W : Int) (hQ : 1 ≤ Q) (rows : List (Int → Nat)) :
    (writes Q W rows).NewestRow = (rows.length : Int) % Q := by
  induction rows using List.reverseRecOn with
  | nil => simp [writes, init_state]
  | append_singleton rows x ih =>
    rw [writes_snoc]
    simp only [write, ih, List.length_append, List.length_singleton, Nat.cast_add,
      Nat.cast_one]
    have h0 : 0 ≤ (rows.length : Int) % Q := Int.emod_nonneg _ (by omega)
    have h1 : (rows.length : Int) % Q < Q := Int.emod_lt_of_pos _ (by omega)
    have e : ((rows.length : Int) + 1) % Q = ((rows.length : Int) % Q + 1) % Q :=
      (Int.emod_add_emod _ _ _).symm
    rw [e]
    unfold advance
    split
    · have : (rows.length : Int) % Q + 1 = Q := by omega
      rw [this, Int.emod_self]
    · exact (Int.emod_eq_of_lt (by omega) (by omega)).symm

theorem write_cell (Q W : Int) (st : EncState) (vals : Int → Nat) (r c : Int) :
    (write Q W st vals).enc_buffer r c
      = if r = advance Q st.NewestRow ∧ 0 ≤ c ∧ c < W then vals c
        else st.enc_buffer r c := by
  simp only [write, store_row_apply]

/-! ## Auxiliary facts on the inverse tile permutation -/

theorem pi_inv_after_pi (N k i j : Int) (hN : 1 ≤ N) (hk0 : 0 ≤ k) (hk : k ≤ N + 1)
    (hi0 : 0 ≤ i) (hi : i < N) (hj0 : 0 ≤ j) :
    pi_inv_row N (pi_row i j k) (pi_col N i j k) k = i ∧
      pi_inv_col (pi_row i j k) (pi_col N i j k) k = j := by
  by_cases hk1 : k = 0
  · simp [pi_inv_row, pi_inv_col, pi_row, pi_col, hk1]
  · have hnn : 0 ≤ i + (k - 1) * j := add_nonneg hi0 (mul_nonneg (by omega) hj0)
    have hm : 0 ≤ Int.tmod (i + (k - 1) * j) N := Int.tmod_nonneg N hnn
    have hs : 0 ≤ (N - (k - 1)) * j + Int.tmod (i + (k - 1) * j) N :=
      add_nonneg (mul_nonneg (by omega) hj0) hm
    simp only [pi_inv_row, pi_inv_col, pi_row, pi_col, if_neg hk1, and_true]
    rw [Int.tmod_eq_emod hs (by omega), Int.tmod_eq_emod hnn (by omega),
      Int.add_emod_emod]
    have e : (N - (k - 1)) * j + (i + (k - 1) * j) = i + N * j := by ring
    rw [e, Int.add_mul_emod_self_left]
    exact Int.emod_eq_of_lt hi0 hi

theorem pi_after_pi_inv (N k r c : Int) (hN : 1 ≤ N) (hk0 : 0 ≤ k) (hk : k ≤ N + 1)
    (hr0 : 0 ≤ r) (hc0 : 0 ≤ c) (hc : c < N) :
    pi_row (pi_inv_row N r c k) (pi_inv_col r c k) k = r ∧
      pi_col N (pi_inv_row N r c k) (pi_inv_col r c k) k = c := by
  by_cases hk1 : k = 0
  · simp [pi_inv_row, pi_inv_col, pi_row, pi_col, hk1]
  · have hs : 0 ≤ (N - (k - 1)) * r + c := add_nonneg (mul_nonneg (by omega) hr0) hc0
    have hm : 0 ≤ Int.tmod ((N - (k - 1)) * r + c) N := Int.tmod_nonneg N hs
    have hnn : 0 ≤ Int.tmod ((N - (k - 1)) * r + c) N + (k - 1) * r :=
      add_nonneg hm (mul_nonneg (by omega) hr0)
    simp only [pi_inv_row, pi_inv_col, pi_row, pi_col, if_neg hk1, true_and]
    rw [Int.tmod_eq_emod hnn (by omega), Int.tmod_eq_emod hs (by omega),
      Int.emod_add_emod]
    have e : (N - (k - 1)) * r + c + (k - 1) * r = c + N * r := by ring
    rw [e, Int.add_mul_emod_self_left]
    exact Int.emod_eq_of_lt hc0 hc

/-! ## Auxiliary facts used by several claims -/

/-- Quotient and remainder of `q * N + r` for `0 ≤ q` and `0 ≤ r < N`. -/
theorem tdiv_tmod_of_decomp (N q r : Int) (hq : 0 ≤ q) (hr0 : 0 ≤ r) (hr : r < N) :
    Int.tdiv (q * N + r) N = q ∧ Int.tmod (q * N + r) N = r := by
  have hN : 0 < N := by omega
  have hx : 0 ≤ q * N + r := add_nonneg (mul_nonneg hq hN.le) hr0
  have hm := tmod_range (q * N + r) N hx hN
  have hd := Int.tmod_add_tdiv (q * N + r) N
  exact tdiv_tmod_unique N _ _ q r hm.1 hm.2 hr0 hr (by linarith)

/-- In an increasing array of `M+1` entries the last entry is the maximum. -/
theorem arr_last_eq_max (a : List Int) (ha : IncreasingFromZero a) (M m : Int)
    (hlen : (a.length : Int) = M + 1) (hm : m ∈ a) (hmax : ∀ x ∈ a, x ≤ m) :
    arr a M = m := by
  obtain ⟨n, hn, e⟩ := List.mem_iff_getElem.mp hm
  have e2 : arr a (n : Int) = m := by rw [arr_eq_getElem a n hn, e]
  have hle : arr a M ≤ m := hmax _ (arr_mem a M (by omega) (by omega))
  rcases lt_or_eq_of_le (show (n : Int) ≤ M by omega) with h | h
  · have := arr_lt a ha n M (by omega) h (by omega)
    omega
  · rw [← h, e2]

theorem shear_inj (N k j i1 i2 : Int) (h1 : 0 ≤ i1) (h1N : i1 < N) (h2 : 0 ≤ i2)
    (h2N : i2 < N)
    (e : Int.tmod (i1 + (k - 1) * j) N = Int.tmod (i2 + (k - 1) * j) N) : i1 = i2 := by
  have d1 := Int.tmod_add_tdiv (i1 + (k - 1) * j) N
  have d2 := Int.tmod_add_tdiv (i2 + (k - 1) * j) N
  rw [e] at d1
  exact ((tdiv_tmod_unique N (Int.tdiv (i2 + (k - 1) * j) N) i1
    (Int.tdiv (i1 + (k - 1) * j) N) i2 h1 h1N h2 h2N (by linarith)).2)

theorem shear_surj (N k r c : Int) (hN : 1 ≤ N) (hk : 1 ≤ k) (hr : 0 ≤ r) (hc0 : 0 ≤ c)
    (hc : c < N) :
    0 ≤ (c - (k - 1) * r) % N ∧ (c - (k - 1) * r) % N < N ∧
      Int.tmod ((c - (k - 1) * r) % N + (k - 1) * r) N = c := by
  have hpos : (0 : Int) < N := by omega
  have hi0 : 0 ≤ (c - (k - 1) * r) % N := Int.emod_nonneg _ (by omega)
  have hiN : (c - (k - 1) * r) % N < N := Int.emod_lt_of_pos _ hpos
  refine ⟨hi0, hiN, ?_⟩
  have hnn : 0 ≤ (c - (k - 1) * r) % N + (k - 1) * r :=
    add_nonneg hi0 (mul_nonneg (by omega) hr)
  rw [Int.tmod_eq_emod hnn hpos.le, Int.emod_add_emod, sub_add_cancel]
  exact Int.emod_eq_of_lt hc0 hc

/-- The basic address calculator at the position `g*S + r` of group `g`. -/
theorem gsc_at_position (p : GscParams) (g r : Int) (hg : 0 ≤ g) (hr0 : 0 ≤ r)
    (hr : r < p.S) :
    gsc.perm p (g * p.S + r) = p.M - g ∧ gsc.j_block p (g * p.S + r) = r := by
  have h := tdiv_tmod_of_decomp p.S g r hg hr0 hr
  simp only [gsc.perm, gsc.j_block, h.1, h.2, and_self]

/-- The generalized address calculator at the position `g*L*T + q*T + r` of
group `g`, band `q`. -/
theorem hosc_at_position (p : HoscParams) (g q r : Int) (hg : 0 ≤ g) (hq0 : 0 ≤ q)
    (hq : q < p.L) (hr0 : 0 ≤ r) (hr : r < p.T) :
    hosc.perm p (g * p.L * p.T + q * p.T + r) = p.M - g ∧
      hosc.c_class p (g * p.L * p.T + q * p.T + r) = q ∧
      hosc.dts_class p (g * p.L * p.T + q * p.T + r) = p.L - 1 - q ∧
      hosc.j_block p (g * p.L * p.T + q * p.T + r) = r := by
  have hin0 : 0 ≤ q * p.T + r := add_nonneg (mul_nonneg hq0 (by omega)) hr0
  have hin : q * p.T + r < hosc.LT p := by
    unfold hosc.LT
    have : (q + 1) * p.T ≤ p.L * p.T := mul_le_mul_of_nonneg_right (by omega) (by omega)
    linarith
  have e : g * p.L * p.T + q * p.T + r = g * hosc.LT p + (q * p.T + r) := by
    unfold hosc.LT; ring
  have h1 := tdiv_tmod_of_decomp (hosc.LT p) g (q * p.T + r) hg hin0 hin
  have h2 := tdiv_tmod_of_decomp p.T q r hq0 hr0 hr
  simp only [hosc.perm, hosc.c_class, hosc.dts_class, hosc.j_block, e, h1.1, h1.2, h2.1,
    h2.2, and_self]

theorem gsc_lookback_bounds (p : GscParams) (hv : gsc.Valid p) (i j : Int)
    (hi0 : 0 ≤ i) (hi : i < p.S) (hj0 : 0 ≤ j) (hj : j < p.M * p.S) :
    1 ≤ gsc.past_row_lookback p i j ∧ gsc.past_row_lookback p i j ≤ gsc.Q p := by
  obtain ⟨hS, hlen, hinc, -, hmax⟩ := hv
  obtain ⟨hp1, hpM, hb0, hbS⟩ := gsc_split p hS j hj0 hj
  have hD1 : 1 ≤ arr p.GOLOMB (p.M - Int.tdiv j p.S) := arr_pos _ hinc _ hp1 (by omega)
  have hD2 : arr p.GOLOMB (p.M - Int.tdiv j p.S) ≤ p.MEMORY :=
    hmax _ (arr_mem _ _ (by omega) (by omega))
  have hk : p.M - Int.tdiv j p.S ≠ 0 := by omega
  simp only [gsc.past_row_lookback, pi_row, if_neg hk, gsc.Q]
  constructor <;> nlinarith

theorem hosc_lookback_bounds (p : HoscParams) (hv : hosc.Valid p) (i j : Int)
    (hi0 : 0 ≤ i) (hi : i < p.T) (hj0 : 0 ≤ j) (hj : j < p.M * p.L * p.T) :
    1 ≤ hosc.past_row_lookback p i j ∧ hosc.past_row_lookback p i j ≤ hosc.Q p := by
  obtain ⟨hT, hlen, hrows, -, hmax⟩ := hv
  have hL : 0 ≤ p.L := by omega
  obtain ⟨hp1, hpM, hb0, hbT, hc0, hcL⟩ := hosc_split p hT hL j hj0 hj
  have hrow : p.DTS.getD (p.L - 1 - Int.tdiv (Int.tmod j (hosc.LT p)) p.T).toNat []
      ∈ p.DTS := arr2_row p.DTS _ (by omega) (by omega)
  obtain ⟨hrl, hrinc⟩ := hrows _ hrow
  have hD1 : 1 ≤ arr2 p.DTS (p.L - 1 - Int.tdiv (Int.tmod j (hosc.LT p)) p.T)
      (p.M - Int.tdiv j (hosc.LT p)) := arr_pos _ hrinc _ hp1 (by omega)
  have hD2 : arr2 p.DTS (p.L - 1 - Int.tdiv (Int.tmod j (hosc.LT p)) p.T)
      (p.M - Int.tdiv j (hosc.LT p)) ≤ p.SCOPE :=
    hmax _ hrow _ (arr_mem _ _ (by omega) (by omega))
  have hk : p.M - Int.tdiv j (hosc.LT p) ≠ 0 := by omega
  simp only [hosc.past_row_lookback, pi_row, if_neg hk, hosc.Q]
  constructor <;> nlinarith

theorem gsc_lookback_eq (p : GscParams) (i j : Int) :
    gsc.past_row_lookback p i j
      = arr p.GOLOMB (gsc.perm p j) * p.S - pi_row i (gsc.j_block p j) (gsc.perm p j) + i :=
  rfl

theorem gsc_col_eq (p : GscParams) (i j : Int) :
    gsc.past_col p i j = pi_col p.S i (gsc.j_block p j) (gsc.perm p j) :=
  rfl

theorem hosc_lookback_eq (p : HoscParams) (i j : Int) :
    hosc.past_row_lookback p i j
      = arr2 p.DTS (hosc.dts_class p j) (hosc.perm p j) * p.T
        - pi_row i (hosc.j_block p j) (hosc.perm p j) + i :=
  rfl

theorem hosc_col_eq (p : HoscParams) (i j : Int) :
    hosc.past_col p i j
      = hosc.c_class p j * p.T + pi_col p.T i (hosc.j_block p j) (hosc.perm p j) :=
  rfl

/-! ## Auxiliary facts on the scheduler -/

theorem append_part_eq (W : Int) (buf : Int → Int → Nat) (nr : Int) (l : Nat) :
    append_part W buf nr l
      = (store_row W buf nr (labels l), l + W.toNat,
          (List.range W.toNat).map (fun (j : Nat) => l + j)) := by
  have key : ∀ n : Nat, (List.range n).foldl
      (fun (s : (Int → Int → Nat) × Nat × List Nat) (j : Nat) =>
        (set_cell s.1 nr (j : Int) s.2.1, s.2.1 + 1,
          s.2.2 ++ [set_cell s.1 nr (j : Int) s.2.1 nr (j : Int)]))
      (buf, l, [])
      = ((List.range n).foldl
            (fun b (j : Nat) => set_cell b nr (j : Int) (labels l (j : Int))) buf,
          l + n, (List.range n).map (fun (j : Nat) => l + j)) := by
    intro n
    induction n with
    | zero => rfl
    | succ n ih =>
      rw [List.range_succ, List.foldl_append, List.foldl_append, List.map_append, ih]
      simp only [List.foldl_cons, List.foldl_nil, List.map_cons, List.map_nil, set_cell,
        labels, Int.toNat_ofNat, and_self, if_true]
      rfl
  unfold append_part store_row
  exact key W.toNat

theorem encode_row_eq (t : Template) (s : Sched) (i : Int) :
    encode_row t s i
      = { st := write t.Q t.W s.st (labels s.data_label),
          data_label := s.data_label + t.W.toNat,
          out := s.out ++ [prepend_part t s.st i
            ++ (List.range t.W.toNat).map (fun (j : Nat) => s.data_label + j)] } := by
  simp only [encode_row, append_part_eq, write]

theorem label_rows_succ (W : Int) (n : Nat) :
    label_rows W (n + 1) = label_rows W n ++ [labels (n * W.toNat + 1)] := by
  simp [label_rows, List.range_succ]

theorem row_steps_succ (t : Template) (n : Nat) :
    row_steps t (n + 1)
      = encode_row t (row_steps t n) ((n % t.N.toNat : Nat) : Int) := by
  simp [row_steps, List.range_succ, List.foldl_append]

theorem row_steps_eq (t : Template) (n : Nat) :
    row_steps t n
      = { st := writes t.Q t.W (label_rows t.W n), data_label := n * t.W.toNat + 1,
          out := (List.range n).map (printed_row t) } := by
  induction n with
  | zero => simp [row_steps, Sched.start, writes, label_rows]
  | succ n ih =>
    rw [row_steps_succ, ih, encode_row_eq, label_rows_succ, writes_snoc, List.range_succ,
      List.map_append]
    simp only [List.map_cons, List.map_nil, printed_row]
    congr 1
    ring

theorem run_eq_row_steps (t : Template) (B : Nat) :
    run t B = row_steps t (B * t.N.toNat) := by
  have inner : ∀ (c k : Nat), k ≤ t.N.toNat →
      (List.range k).foldl (fun s (i : Nat) => encode_row t s (i : Int))
        (row_steps t (c * t.N.toNat))
      = row_steps t (c * t.N.toNat + k) := by
    intro c k
    induction k with
    | zero => intro _; rfl
    | succ k ih =>
      intro hk
      rw [List.range_succ, List.foldl_append, ih (by omega)]
      simp only [List.foldl_cons, List.foldl_nil]
      rw [← Nat.add_assoc, row_steps_succ, Nat.mul_add_mod_of_lt (by omega)]
  induction B with
  | zero => simp [run, row_steps]
  | succ B ih =>
    have : run t (B + 1) = encode_block t (run t B) := by
      simp [run, List.range_succ, List.foldl_append]
    rw [this, ih, encode_block, inner B _ le_rfl, Nat.succ_mul]

/-- While fewer than `Q` rows have been written, the cursor is the number of
rows written and every buffer row outside `1, ..., rows.length` is still zero. -/
theorem writes_unwritten (Q W : Int) (rows : List (Int → Nat))
    (hlen : (rows.length : Int) < Q) :
    (writes Q W rows).NewestRow = rows.length ∧
      ∀ r c : Int, r ≤ 0 ∨ (rows.length : Int) < r →
        (writes Q W rows).enc_buffer r c = 0 := by
  induction rows using List.reverseRecOn with
  | nil => exact ⟨rfl, fun _ _ _ => rfl⟩
  | append_singleton rows x ih =>
    rw [List.length_append, List.length_singleton, Nat.cast_add, Nat.cast_one] at hlen
    obtain ⟨hcur, hz⟩ := ih (by omega)
    have hadv : advance Q (writes Q W rows).NewestRow = (rows.length : Int) + 1 := by
      rw [hcur]; unfold advance; split <;> omega
    rw [writes_snoc]
    refine ⟨?_, ?_⟩
    · simp only [write, hadv, List.length_append, List.length_singleton, Nat.cast_add,
        Nat.cast_one]
    · intro r c hr
      rw [List.length_append, List.length_singleton, Nat.cast_add, Nat.cast_one] at hr
      have hne : ¬ (r = advance Q (writes Q W rows).NewestRow ∧ 0 ≤ c ∧ c < W) := by
        rw [hadv]; omega
      rw [write_cell, if_neg hne]
      exact hz r c (by omega)

/-- The value read at lookback distance `d` in the buffer holding the label
rows `0, ..., n-1`: the label at column `c` of row `n-d` when `d ≤ n`, and zero
when the row has not been written yet. -/
theorem read_label_rows (Q W : Int) (n : Nat) (d c : Int) (hd1 : 1 ≤ d) (hdQ : d ≤ Q)
    (hc0 : 0 ≤ c) (hcW : c < W) :
    (read_at Q (writes Q W (label_rows W n)) d c : Int)
      = if d ≤ n then ((n : Int) - d) * W + 1 + c else 0 := by
  have hlen : (label_rows W n).length = n := by simp [label_rows]
  have hW : ((W.toNat : Nat) : Int) = W := Int.toNat_of_nonneg (by omega)
  have hcn : ((c.toNat : Nat) : Int) = c := Int.toNat_of_nonneg hc0
  have hdn : ((d.toNat : Nat) : Int) = d := Int.toNat_of_nonneg (by omega)
  split
  · rename_i hle
    have h1 : 1 ≤ d.toNat := by omega
    have h2 : d.toNat ≤ n := by omega
    have hget : (label_rows W n).reverse[d.toNat - 1]?
        = some (labels ((n - d.toNat) * W.toNat + 1)) := by
      rw [List.getElem?_reverse (by omega), hlen]
      have e : n - 1 - (d.toNat - 1) = n - d.toNat := by omega
      rw [e]
      simp only [label_rows, List.getElem?_map]
      rw [List.getElem?_range (by omega)]
      rfl
    have h := writes_read_invariant Q W (by omega) (label_rows W n) d.toNat h1
      (by omega) _ hget c hc0 hcW
    rw [hdn] at h
    rw [h]
    simp only [labels]
    push_cast [Nat.cast_sub h2]
    rw [hW, hcn, hdn]
  · rename_i hgt
    have hnQ : ((label_rows W n).length : Int) < Q := by rw [hlen]; omega
    obtain ⟨hcur, hz⟩ := writes_unwritten Q W (label_rows W n) hnQ
    rw [hlen] at hcur hz
    simp only [read_at, hcur]
    rw [read_row_eq Q n d (by omega) (by omega) hd1 hdQ]
    have : (if d ≤ (n : Int) + 1 then (n : Int) + 1 - d else (n : Int) + 1 - d + Q) ≤ 0
        ∨ (n : Int) < (if d ≤ (n : Int) + 1 then (n : Int) + 1 - d
          else (n : Int) + 1 - d + Q) := by
      split <;> omega
    rw [hz _ c this]
    rfl

theorem gsc_col_bounds (p : GscParams) (hS : 1 ≤ p.S) (i j : Int) (hi0 : 0 ≤ i)
    (hj0 : 0 ≤ j) (hj : j < p.M * p.S) :
    0 ≤ gsc.past_col p i j ∧ gsc.past_col p i j < p.S := by
  obtain ⟨hp1, hpM, hb0, hbS⟩ := gsc_split p hS j hj0 hj
  exact pi_col_range p.S i _ _ hS hi0 hb0 hbS (by omega)

theorem hosc_col_bounds (p : HoscParams) (hT : 1 ≤ p.T) (hL : 0 ≤ p.L) (i j : Int)
    (hi0 : 0 ≤ i) (hj0 : 0 ≤ j) (hj : j < p.M * p.L * p.T) :
    0 ≤ hosc.past_col p i j ∧ hosc.past_col p i j < p.L * p.T := by
  obtain ⟨hp1, hpM, hb0, hbT, hc0, hcL⟩ := hosc_split p hT hL j hj0 hj
  have hpc := pi_col_range p.T i _ _ hT hi0 hb0 hbT
    (show 0 ≤ p.M - Int.tdiv j (hosc.LT p) by omega)
  simp only [hosc.past_col]
  constructor <;> nlinarith

/-- The line with index `m` in the output of `B` blocks is `printed_row t m`. -/
theorem run_out_getElem (t : Template) (B m : Nat) (hm : m < B * t.N.toNat) :
    (run t B).out[m]? = some (printed_row t m) := by
  rw [run_eq_row_steps, row_steps_eq]
  simp only [List.getElem?_map]
  rw [List.getElem?_range hm]
  rfl

theorem prepend_part_length (t : Template) (st : EncState) (i : Int) :
    (prepend_part t st i).length = t.P.toNat := by
  simp [prepend_part]

theorem printed_row_prepend (t : Template) (m j : Nat) (hj : j < t.P.toNat) :
    (printed_row t m)[j]?
      = some (read_at t.Q (writes t.Q t.W (label_rows t.W m))
          (t.lookback ((m % t.N.toNat : Nat) : Int) (j : Int))
          (t.col ((m % t.N.toNat : Nat) : Int) (j : Int))) := by
  unfold printed_row
  rw [List.getElem?_append_left (by rw [prepend_part_length]; exact hj)]
  simp only [prepend_part, List.getElem?_map]
  rw [List.getElem?_range hj]
  rfl

theorem printed_row_append (t : Template) (m a : Nat) (ha : a < t.W.toNat) :
    (printed_row t m)[t.P.toNat + a]? = some (m * t.W.toNat + 1 + a) := by
  unfold printed_row
  rw [List.getElem?_append_right (by rw [prepend_part_length]; omega),
    prepend_part_length, Nat.add_sub_cancel_left]
  simp only [List.getElem?_map]
  rw [List.getElem?_range ha]
  rfl

theorem printed_row_length (t : Template) (m : Nat) :
    (printed_row t m).length = t.P.toNat + t.W.toNat := by
  simp [printed_row, prepend_part_length]

/-- Index facts in the state reached after `n` row encodings, for a lookback
distance `d` in `[1, Q]`. -/
theorem row_steps_indices (t : Template) (n : Nat) (d : Int) (hd1 : 1 ≤ d)
    (hdQ : d ≤ t.Q) :
    0 ≤ (row_steps t n).st.NewestRow ∧ (row_steps t n).st.NewestRow < t.Q ∧
      0 ≤ (row_steps t n).st.NewestRow + 1 - d + t.Q ∧
      0 ≤ read_row t.Q (row_steps t n).st.NewestRow d ∧
      read_row t.Q (row_steps t n).st.NewestRow d < t.Q ∧
      0 ≤ advance t.Q (row_steps t n).st.NewestRow ∧
      advance t.Q (row_steps t n).st.NewestRow < t.Q := by
  have hQ : 1 ≤ t.Q := by omega
  have hst : (row_steps t n).st = writes t.Q t.W (label_rows t.W n) := by
    rw [row_steps_eq]
  have hcur := writes_cursor_range t.Q t.W hQ (label_rows t.W n)
  rw [← hst] at hcur
  have hadv := advance_range t.Q _ hQ hcur.1
  have hrr := read_row_eq t.Q _ d hcur.1 hcur.2 hd1 hdQ
  refine ⟨hcur.1, hcur.2, by omega, ?_, ?_, hadv.1, hadv.2⟩
  · rw [hrr]; split <;> omega
  · rw [hrr]; split <;> omega

/-! ## Claims -/

/-- C1 (generalized variant, address range): for every valid parameter set,
every row index `0 ≤ i < T` and every prepend position `0 ≤ j < M*L*T`, the
lookback distance lies in `[1, Q]` with `Q = (1+SCOPE)*T-1` and the column lies
in `[0, L*T)`. -/
theorem hosc_address_in_range (p : HoscParams) (hv : hosc.Valid p) (i j : Int)
    (hi0 : 0 ≤ i) (hi : i < p.T) (hj0 : 0 ≤ j) (hj : j < p.M * p.L * p.T) :
    1 ≤ hosc.past_row_lookback p i j ∧ hosc.past_row_lookback p i j ≤ hosc.Q p ∧
      0 ≤ hosc.past_col p i j ∧ hosc.past_col p i j < p.L * p.T := by
  obtain ⟨hT, hlen, hrows, -, hmax⟩ := hv
  have hL : 0 ≤ p.L := by omega
  obtain ⟨hp1, hpM, hb0, hbT, hc0, hcL⟩ := hosc_split p hT hL j hj0 hj
  set perm := p.M - Int.tdiv j (hosc.LT p) with hperm
  set jb := Int.tmod (Int.tmod j (hosc.LT p)) p.T with hjb
  set cc := Int.tdiv (Int.tmod j (hosc.LT p)) p.T with hcc
  have hrow : p.DTS.getD (p.L - 1 - cc).toNat [] ∈ p.DTS :=
    arr2_row p.DTS (p.L - 1 - cc) (by omega) (by omega)
  obtain ⟨hrl, hrinc⟩ := hrows _ hrow
  have hD1 : 1 ≤ arr2 p.DTS (p.L - 1 - cc) perm :=
    arr_pos _ hrinc perm hp1 (by omega)
  have hD2 : arr2 p.DTS (p.L - 1 - cc) perm ≤ p.SCOPE :=
    hmax _ hrow _ (arr_mem _ perm (by omega) (by omega))
  have hk : perm ≠ 0 := by omega
  have hpc := pi_col_range p.T i jb perm hT hi0 hb0 hbT (by omega)
  have e1 : hosc.past_row_lookback p i j
      = arr2 p.DTS (p.L - 1 - cc) perm * p.T - jb + i := by
    simp only [hosc.past_row_lookback, pi_row, ← hperm, ← hjb, ← hcc, if_neg hk]
  have e2 : hosc.past_col p i j = cc * p.T + pi_col p.T i jb perm := by
    simp only [hosc.past_col, ← hperm, ← hjb, ← hcc]
  rw [e1, e2, hosc.Q]
  refine ⟨?_, ?_, ?_, ?_⟩
  · nlinarith
  · nlinarith
  · nlinarith
  · nlinarith

/-- Witness of C1 at the parameters written in the source, row `i = 1`,
prepend position `j = 5`. -/
theorem hosc_address_in_range_witness :
    hosc.Valid hosc.compiled ∧
      1 ≤ hosc.past_row_lookback hosc.compiled 1 5 ∧
      hosc.past_row_lookback hosc.compiled 1 5 ≤ hosc.Q hosc.compiled ∧
      0 ≤ hosc.past_col hosc.compiled 1 5 ∧
      hosc.past_col hosc.compiled 1 5 < hosc.compiled.L * hosc.compiled.T :=
  ⟨by decide, hosc_address_in_range hosc.compiled (by decide) 1 5 (by decide)
    (by decide) (by decide) (by decide)⟩

/-- C2 (basic variant, address range): for every valid ruler, every row index
`0 ≤ i < S` and every prepend position `0 ≤ j < M*S`, the lookback distance lies
in `[1, Q]` with `Q = (1+MEMORY)*S-1` and the column lies in `[0, S)`. -/
theorem gsc_address_in_range (p : GscParams) (hv : gsc.Valid p) (i j : Int)
    (hi0 : 0 ≤ i) (hi : i < p.S) (hj0 : 0 ≤ j) (hj : j < p.M * p.S) :
    1 ≤ gsc.past_row_lookback p i j ∧ gsc.past_row_lookback p i j ≤ gsc.Q p ∧
      0 ≤ gsc.past_col p i j ∧ gsc.past_col p i j < p.S := by
  obtain ⟨hS, hlen, hinc, -, hmax⟩ := hv
  obtain ⟨hp1, hpM, hb0, hbS⟩ := gsc_split p hS j hj0 hj
  set perm := p.M - Int.tdiv j p.S with hperm
  set jb := Int.tmod j p.S with hjb
  have hD1 : 1 ≤ arr p.GOLOMB perm := arr_pos _ hinc perm hp1 (by omega)
  have hD2 : arr p.GOLOMB perm ≤ p.MEMORY :=
    hmax _ (arr_mem _ perm (by omega) (by omega))
  have hk : perm ≠ 0 := by omega
  have hpc := pi_col_range p.S i jb perm hS hi0 hb0 hbS (by omega)
  have e1 : gsc.past_row_lookback p i j = arr p.GOLOMB perm * p.S - jb + i := by
    simp only [gsc.past_row_lookback, pi_row, ← hperm, ← hjb, if_neg hk]
  have e2 : gsc.past_col p i j = pi_col p.S i jb perm := by
    simp only [gsc.past_col, ← hperm, ← hjb]
  rw [e1, e2, gsc.Q]
  refine ⟨?_, ?_, hpc.1, hpc.2⟩
  · nlinarith
  · nlinarith

/-- Witness of C2 at the parameters written in the source, row `i = 2`,
prepend position `j = 4`. -/
theorem gsc_address_in_range_witness :
    gsc.Valid gsc.compiled ∧
      1 ≤ gsc.past_row_lookback gsc.compiled 2 4 ∧
      gsc.past_row_lookback gsc.compiled 2 4 ≤ gsc.Q gsc.compiled ∧
      0 ≤ gsc.past_col gsc.compiled 2 4 ∧
      gsc.past_col gsc.compiled 2 4 < gsc.compiled.S :=
  ⟨by decide, gsc_address_in_range gsc.compiled (by decide) 2 4 (by decide)
    (by decide) (by decide) (by decide)⟩

/-- C3 (generalized variant, injectivity): for every valid parameter set and
every fixed row index `0 ≤ i < T`, the address map
`j ↦ (past_row_lookback(i,j), past_col(i,j))` is injective on `0 ≤ j < M*L*T`. -/
theorem hosc_address_injective (p : HoscParams) (hv : hosc.Valid p) (i : Int)
    (hi0 : 0 ≤ i) (_hi : i < p.T) :
    Set.InjOn (fun j => (hosc.past_row_lookback p i j, hosc.past_col p i j))
      (Set.Ico 0 (p.M * p.L * p.T)) := by
  obtain ⟨hT, hlen, hrows, -, -⟩ := hv
  have hL : 0 ≤ p.L := by omega
  intro j1 hj1 j2 hj2 he
  simp only [Set.mem_Ico] at hj1 hj2
  simp only [Prod.mk.injEq] at he
  obtain ⟨hp1, hpM, hb0, hbT, hc0, hcL⟩ := hosc_split p hT hL j1 hj1.1 hj1.2
  obtain ⟨hq1, hqM, hd0, hdT, he0, heL⟩ := hosc_split p hT hL j2 hj2.1 hj2.2
  have d1 := Int.tmod_add_tdiv j1 (hosc.LT p)
  have d2 := Int.tmod_add_tdiv j2 (hosc.LT p)
  have r1 := Int.tmod_add_tdiv (Int.tmod j1 (hosc.LT p)) p.T
  have r2 := Int.tmod_add_tdiv (Int.tmod j2 (hosc.LT p)) p.T
  set perm1 := p.M - Int.tdiv j1 (hosc.LT p) with hperm1
  set jb1 := Int.tmod (Int.tmod j1 (hosc.LT p)) p.T with hjb1
  set cc1 := Int.tdiv (Int.tmod j1 (hosc.LT p)) p.T with hcc1
  set perm2 := p.M - Int.tdiv j2 (hosc.LT p) with hperm2
  set jb2 := Int.tmod (Int.tmod j2 (hosc.LT p)) p.T with hjb2
  set cc2 := Int.tdiv (Int.tmod j2 (hosc.LT p)) p.T with hcc2
  have hk1 : perm1 ≠ 0 := by omega
  have hk2 : perm2 ≠ 0 := by omega
  have hpc1 := pi_col_range p.T i jb1 perm1 hT hi0 hb0 hbT (by omega)
  have hpc2 := pi_col_range p.T i jb2 perm2 hT hi0 hd0 hdT (by omega)
  have a1 : hosc.past_row_lookback p i j1
      = arr2 p.DTS (p.L - 1 - cc1) perm1 * p.T - jb1 + i := by
    simp only [hosc.past_row_lookback, pi_row, ← hperm1, ← hjb1, ← hcc1, if_neg hk1]
  have a2 : hosc.past_row_lookback p i j2
      = arr2 p.DTS (p.L - 1 - cc2) perm2 * p.T - jb2 + i := by
    simp only [hosc.past_row_lookback, pi_row, ← hperm2, ← hjb2, ← hcc2, if_neg hk2]
  have c1 : hosc.past_col p i j1 = cc1 * p.T + pi_col p.T i jb1 perm1 := by
    simp only [hosc.past_col, ← hperm1, ← hjb1, ← hcc1]
  have c2 : hosc.past_col p i j2 = cc2 * p.T + pi_col p.T i jb2 perm2 := by
    simp only [hosc.past_col, ← hperm2, ← hjb2, ← hcc2]
  rw [a1, a2, c1, c2] at he
  obtain ⟨hrowEq, hcolEq⟩ := he
  -- the column decides the band, the lookback decides the DTS entry and `j_block`
  have hcc : cc1 = cc2 :=
    (tdiv_tmod_unique p.T cc1 _ cc2 _ hpc1.1 hpc1.2 hpc2.1 hpc2.2 hcolEq).1
  have hDb := tdiv_tmod_unique p.T (arr2 p.DTS (p.L - 1 - cc1) perm1 - 1)
    (p.T - 1 - jb1) (arr2 p.DTS (p.L - 1 - cc2) perm2 - 1) (p.T - 1 - jb2)
    (by omega) (by omega) (by omega) (by omega) (by linarith)
  have hjb : jb1 = jb2 := by omega
  have hD : arr2 p.DTS (p.L - 1 - cc1) perm1 = arr2 p.DTS (p.L - 1 - cc2) perm2 := by
    omega
  rw [← hcc] at hD
  have hrow : p.DTS.getD (p.L - 1 - cc1).toNat [] ∈ p.DTS :=
    arr2_row p.DTS (p.L - 1 - cc1) (by omega) (by omega)
  obtain ⟨hrl, hrinc⟩ := hrows _ hrow
  have hperm : perm1 = perm2 :=
    arr_inj _ hrinc perm1 perm2 (by omega) (by omega) (by omega) (by omega) hD
  have hq : Int.tdiv j1 (hosc.LT p) = Int.tdiv j2 (hosc.LT p) := by omega
  have hrect : Int.tmod j1 (hosc.LT p) = Int.tmod j2 (hosc.LT p) := by
    rw [← r1, ← r2, hcc, hjb]
  rw [hq, hrect] at d1
  exact d1.symm.trans d2

/-- Witness of C3 at the parameters written in the source, row `i = 1`. -/
theorem hosc_address_injective_witness :
    Set.InjOn
      (fun j => (hosc.past_row_lookback hosc.compiled 1 j, hosc.past_col hosc.compiled 1 j))
      (Set.Ico 0 (hosc.compiled.M * hosc.compiled.L * hosc.compiled.T)) :=
  hosc_address_injective hosc.compiled (by decide) 1 (by decide) (by decide)

/-- C4 (basic variant, injectivity): for every valid ruler and every fixed row
index `i` (in particular `0 ≤ i < S`; the range of `i` plays no role), the
address map `j ↦ (past_row_lookback(i,j), past_col(i,j))` is injective on
`0 ≤ j < M*S`. -/
theorem gsc_address_injective (p : GscParams) (hv : gsc.Valid p) (i : Int) :
    Set.InjOn (fun j => (gsc.past_row_lookback p i j, gsc.past_col p i j))
      (Set.Ico 0 (p.M * p.S)) := by
  obtain ⟨hS, hlen, hinc, -, -⟩ := hv
  intro j1 hj1 j2 hj2 he
  simp only [Set.mem_Ico] at hj1 hj2
  simp only [Prod.mk.injEq] at he
  obtain ⟨hp1, hpM, hb0, hbS⟩ := gsc_split p hS j1 hj1.1 hj1.2
  obtain ⟨hq1, hqM, hd0, hdS⟩ := gsc_split p hS j2 hj2.1 hj2.2
  have d1 := Int.tmod_add_tdiv j1 p.S
  have d2 := Int.tmod_add_tdiv j2 p.S
  set perm1 := p.M - Int.tdiv j1 p.S with hperm1
  set jb1 := Int.tmod j1 p.S with hjb1
  set perm2 := p.M - Int.tdiv j2 p.S with hperm2
  set jb2 := Int.tmod j2 p.S with hjb2
  have hk1 : perm1 ≠ 0 := by omega
  have hk2 : perm2 ≠ 0 := by omega
  have a1 : gsc.past_row_lookback p i j1 = arr p.GOLOMB perm1 * p.S - jb1 + i := by
    simp only [gsc.past_row_lookback, pi_row, ← hperm1, ← hjb1, if_neg hk1]
  have a2 : gsc.past_row_lookback p i j2 = arr p.GOLOMB perm2 * p.S - jb2 + i := by
    simp only [gsc.past_row_lookback, pi_row, ← hperm2, ← hjb2, if_neg hk2]
  rw [a1, a2] at he
  have hDb := tdiv_tmod_unique p.S (arr p.GOLOMB perm1 - 1) (p.S - 1 - jb1)
    (arr p.GOLOMB perm2 - 1) (p.S - 1 - jb2)
    (by omega) (by omega) (by omega) (by omega) (by linarith [he.1])
  have hjb : jb1 = jb2 := by omega
  have hD : arr p.GOLOMB perm1 = arr p.GOLOMB perm2 := by omega
  have hperm : perm1 = perm2 :=
    arr_inj _ hinc perm1 perm2 (by omega) (by omega) (by omega) (by omega) hD
  have hq : Int.tdiv j1 p.S = Int.tdiv j2 p.S := by omega
  rw [hq, hjb] at d1
  exact d1.symm.trans d2

/-- Witness of C4 at the parameters written in the source, row `i = 2`. -/
theorem gsc_address_injective_witness :
    Set.InjOn
      (fun j => (gsc.past_row_lookback gsc.compiled 2 j, gsc.past_col gsc.compiled 2 j))
      (Set.Ico 0 (gsc.compiled.M * gsc.compiled.S)) :=
  gsc_address_injective gsc.compiled (by decide) 2

/-- C5 (tile permutation): for every iteration index `k ≥ 0` and every tile
size `N ≥ 1`, the map `(i,j) ↦ (pi_row(i,j,k), pi_col(i,j,k))` is a bijection of
the tile `{0..N-1} x {0..N-1}` onto itself. -/
theorem tile_permutation_bijective (N k : Int) (hN : 1 ≤ N) (hk : 0 ≤ k) :
    Set.BijOn (fun c : Int × Int => (pi_row c.1 c.2 k, pi_col N c.1 c.2 k))
      (Set.Ico 0 N ×ˢ Set.Ico 0 N) (Set.Ico 0 N ×ˢ Set.Ico 0 N) := by
  refine ⟨?_, ?_, ?_⟩
  · rintro ⟨i, j⟩ ⟨hi, hj⟩
    simp only [Set.mem_Ico] at hi hj
    have hc := pi_col_range N i j k hN hi.1 hj.1 hj.2 hk
    simp only [Set.mem_prod, Set.mem_Ico, pi_row]
    split <;> simp_all
  · rintro ⟨i1, j1⟩ ⟨hi1, hj1⟩ ⟨i2, j2⟩ ⟨hi2, hj2⟩ he
    simp only [Set.mem_Ico] at hi1 hj1 hi2 hj2
    simp only [Prod.mk.injEq, pi_row, pi_col] at he
    by_cases hk0 : k = 0
    · simpa [hk0] using he
    · simp only [if_neg hk0] at he
      obtain ⟨hj, hc⟩ := he
      subst hj
      have d1 := Int.tmod_add_tdiv (i1 + (k - 1) * j1) N
      have d2 := Int.tmod_add_tdiv (i2 + (k - 1) * j1) N
      rw [hc] at d1
      have := tdiv_tmod_unique N (Int.tdiv (i2 + (k - 1) * j1) N) i1
        (Int.tdiv (i1 + (k - 1) * j1) N) i2 hi1.1 hi1.2 hi2.1 hi2.2 (by linarith)
      rw [this.2]
  · rintro ⟨r, c⟩ ⟨hr, hc⟩
    simp only [Set.mem_Ico] at hr hc
    by_cases hk0 : k = 0
    · exact ⟨(r, c), ⟨hr, hc⟩, by simp [pi_row, pi_col, hk0]⟩
    · have hpos : (0 : Int) < N := by omega
      have hi0 : 0 ≤ (c - (k - 1) * r) % N := Int.emod_nonneg _ (by omega)
      have hiN : (c - (k - 1) * r) % N < N := Int.emod_lt_of_pos _ hpos
      refine ⟨((c - (k - 1) * r) % N, r), ⟨⟨hi0, hiN⟩, hr⟩, ?_⟩
      have hnn : 0 ≤ (c - (k - 1) * r) % N + (k - 1) * r :=
        add_nonneg hi0 (mul_nonneg (by omega) hr.1)
      simp only [pi_row, pi_col, if_neg hk0, Prod.mk.injEq, true_and]
      rw [Int.tmod_eq_emod hnn hpos.le, Int.emod_add_emod, sub_add_cancel]
      exact Int.emod_eq_of_lt hc.1 hc.2

/-- Witness of C5 for the tile size and the largest iteration index of the
basic source (`N = S = 3`, `k = M = 2`). -/
theorem tile_permutation_bijective_witness :
    Set.BijOn (fun c : Int × Int => (pi_row c.1 c.2 2, pi_col 3 c.1 c.2 2))
      (Set.Ico 0 3 ×ˢ Set.Ico 0 3) (Set.Ico 0 3 ×ˢ Set.Ico 0 3) :=
  tile_permutation_bijective 3 2 (by decide) (by decide)

/-- C6 (history buffer read invariant): starting from the initial state, after
writing the rows `rows` the way the scheduler does, for every `d` with
`1 ≤ d ≤ min(rows.length, Q)` the `d`-th most recent row `r` exists and the read
`enc_buffer[(NewestRow+1-d+Q)%Q][c]` returns `r c` at every column `0 ≤ c < W`. -/
theorem read_returns_dth_latest_write (Q W : Int) (rows : List (Int → Nat)) (d : Nat)
    (hd1 : 1 ≤ d) (hdn : d ≤ rows.length) (hdQ : (d : Int) ≤ Q) :
    ∃ r, rows.reverse[d - 1]? = some r ∧
      ∀ c : Int, 0 ≤ c → c < W → read_at Q (writes Q W rows) d c = r c := by
  have hlt : d - 1 < rows.reverse.length := by rw [List.length_reverse]; omega
  refine ⟨rows.reverse[d - 1], List.getElem?_eq_getElem hlt, ?_⟩
  exact writes_read_invariant Q W (by omega) rows d hd1 hdQ _
    (List.getElem?_eq_getElem hlt)

/-- Witness of C6: three label rows written into the buffer of the basic source
(`Q = 11`, `W = 3`), read at lookback distance `d = 2`. -/
theorem read_returns_dth_latest_write_witness :
    ∃ r, [labels 1, labels 4, labels 7].reverse[2 - 1]? = some r ∧
      ∀ c : Int, 0 ≤ c → c < 3 →
        read_at 11 (writes 11 3 [labels 1, labels 4, labels 7]) (2 : Nat) c = r c :=
  read_returns_dth_latest_write 11 3 [labels 1, labels 4, labels 7] 2 (by decide)
    (by decide) (by decide)

/-- C7 (history buffer write): in every state whose cursor is in `[0, Q)` a
write stores into buffer row `(NewestRow+1) mod Q`, which is the row a read at
lookback distance `Q` used just before the write, stores the new values there and
leaves every other row unchanged; from the initial state the first `Q` writes
land on pairwise different rows, and the `(Q+1)`-th write lands on the row of the
first write and replaces its contents. -/
theorem write_overwrites_oldest (Q W : Int) (hQ : 1 ≤ Q) :
    (∀ (st : EncState) (vals : Int → Nat), 0 ≤ st.NewestRow → st.NewestRow < Q →
      (write Q W st vals).NewestRow = (st.NewestRow + 1) % Q ∧
      (write Q W st vals).NewestRow = read_row Q st.NewestRow Q ∧
      (∀ c : Int, 0 ≤ c → c < W →
        (write Q W st vals).enc_buffer (write Q W st vals).NewestRow c = vals c) ∧
      (∀ r c : Int, r ≠ (write Q W st vals).NewestRow →
        (write Q W st vals).enc_buffer r c = st.enc_buffer r c)) ∧
    (∀ (rows : List (Int → Nat)) (m1 m2 : Nat), 1 ≤ m1 → m1 < m2 → m2 ≤ rows.length →
      (rows.length : Int) ≤ Q →
      (writes Q W (rows.take m1)).NewestRow ≠ (writes Q W (rows.take m2)).NewestRow) ∧
    (∀ (first : Int → Nat) (rest : List (Int → Nat)) (x : Int → Nat),
      ((first :: rest).length : Int) = Q →
      (writes Q W ((first :: rest) ++ [x])).NewestRow = (writes Q W [first]).NewestRow ∧
      ∀ c : Int, 0 ≤ c → c < W →
        (writes Q W ((first :: rest) ++ [x])).enc_buffer (writes Q W [first]).NewestRow c
          = x c) := by
  refine ⟨?_, ?_, ?_⟩
  · intro st vals h0 hlt
    have hnr : (write Q W st vals).NewestRow = advance Q st.NewestRow := rfl
    refine ⟨?_, ?_, ?_, ?_⟩
    · rw [hnr]
      unfold advance
      split
      · have : st.NewestRow + 1 = Q := by omega
        rw [this, Int.emod_self]
      · exact (Int.emod_eq_of_lt (by omega) (by omega)).symm
    · rw [hnr, read_row_eq Q _ Q h0 hlt hQ le_rfl]
      unfold advance
      split_ifs <;> omega
    · intro c hc0 hcW
      rw [write_cell, hnr, if_pos ⟨rfl, hc0, hcW⟩]
    · intro r c hr
      rw [hnr] at hr
      rw [write_cell, if_neg (fun h => hr h.1)]
  · intro rows m1 m2 h1 h12 h2 hlen
    rw [writes_cursor Q W hQ, writes_cursor Q W hQ, List.length_take, List.length_take,
      min_eq_left (by omega), min_eq_left h2]
    have e1 : (m1 : Int) % Q = m1 := Int.emod_eq_of_lt (by omega) (by omega)
    rw [e1]
    rcases (show (m2 : Int) = Q ∨ (m2 : Int) < Q by omega) with hm | hm
    · rw [hm, Int.emod_self]
      omega
    · have e2 : (m2 : Int) % Q = m2 := Int.emod_eq_of_lt (by omega) (by omega)
      rw [e2]
      omega
  · intro first rest x hlen
    have hcur : (writes Q W ((first :: rest) ++ [x])).NewestRow
        = (writes Q W [first]).NewestRow := by
      rw [writes_cursor Q W hQ, writes_cursor Q W hQ, List.length_append, Nat.cast_add,
        hlen]
      simp
    refine ⟨hcur, ?_⟩
    intro c hc0 hcW
    rw [← hcur, writes_snoc]
    rw [write_cell, if_pos ⟨rfl, hc0, hcW⟩]

/-- Witness of C7 for the buffer of the basic source (`Q = 11`, `W = 3`). -/
theorem write_overwrites_oldest_witness :
    (∀ (st : EncState) (vals : Int → Nat), 0 ≤ st.NewestRow → st.NewestRow < 11 →
      (write 11 3 st vals).NewestRow = (st.NewestRow + 1) % 11 ∧
      (write 11 3 st vals).NewestRow = read_row 11 st.NewestRow 11 ∧
      (∀ c : Int, 0 ≤ c → c < 3 →
        (write 11 3 st vals).enc_buffer (write 11 3 st vals).NewestRow c = vals c) ∧
      (∀ r c : Int, r ≠ (write 11 3 st vals).NewestRow →
        (write 11 3 st vals).enc_buffer r c = st.enc_buffer r c)) ∧
    (∀ (rows : List (Int → Nat)) (m1 m2 : Nat), 1 ≤ m1 → m1 < m2 → m2 ≤ rows.length →
      (rows.length : Int) ≤ 11 →
      (writes 11 3 (rows.take m1)).NewestRow ≠ (writes 11 3 (rows.take m2)).NewestRow) ∧
    (∀ (first : Int → Nat) (rest : List (Int → Nat)) (x : Int → Nat),
      ((first :: rest).length : Int) = 11 →
      (writes 11 3 ((first :: rest) ++ [x])).NewestRow = (writes 11 3 [first]).NewestRow ∧
      ∀ c : Int, 0 ≤ c → c < 3 →
        (writes 11 3 ((first :: rest) ++ [x])).enc_buffer (writes 11 3 [first]).NewestRow c
          = x c) :=
  write_overwrites_oldest 11 3 (by decide)

/-- C8, counterexample: in the buffer of the basic source (`Q = 11`, `W = 3`),
after writing the row `1,2,3` and then the next row `4,5,6`, the read at
lookback distance 1 returns `4` at column 0, not the value `1` written first. -/
theorem lookback_one_after_next_write_returns_newer_row :
    read_at 11 (write 11 3 (write 11 3 init_state (labels 1)) (labels 4)) 1 0 = 4 ∧
      labels 1 0 = 1 ∧
      ¬ (∀ c : Int, 0 ≤ c → c < 3 →
        read_at 11 (write 11 3 (write 11 3 init_state (labels 1)) (labels 4)) 1 c
          = labels 1 c) := by
  refine ⟨by decide, by decide, fun h => ?_⟩
  have := h 0 (by decide) (by decide)
  revert this
  decide

/-- C8, amended (history buffer round-trip): in every state whose cursor is in
`[0, Q)`, after writing a row `r` a read at lookback distance 1 made before the
next write returns `r` at every column; after the next write of a row `r2`,
lookback distance 1 returns `r2`, and `r` is returned unchanged at lookback
distance 2 provided `Q ≥ 2`. -/
theorem roundtrip_after_write (Q W : Int) (hQ : 1 ≤ Q) (st : EncState)
    (h0 : 0 ≤ st.NewestRow) (hlt : st.NewestRow < Q) (r r2 : Int → Nat) (c : Int)
    (hc0 : 0 ≤ c) (hcW : c < W) :
    read_at Q (write Q W st r) 1 c = r c ∧
      read_at Q (write Q W (write Q W st r) r2) 1 c = r2 c ∧
      (2 ≤ Q → read_at Q (write Q W (write Q W st r) r2) 2 c = r c) := by
  have hnr : ∀ (s : EncState) (v : Int → Nat),
      (write Q W s v).NewestRow = advance Q s.NewestRow := fun _ _ => rfl
  have ha := advance_range Q st.NewestRow hQ h0
  have hb := advance_range Q (advance Q st.NewestRow) hQ ha.1
  have one : ∀ nr : Int, 0 ≤ nr → nr < Q → read_row Q nr 1 = nr := by
    intro nr h1 h2
    rw [read_row_eq Q nr 1 h1 h2 le_rfl hQ]
    split <;> omega
  refine ⟨?_, ?_, ?_⟩
  · simp only [read_at]
    rw [hnr, one _ ha.1 ha.2, write_cell, if_pos ⟨rfl, hc0, hcW⟩]
  · simp only [read_at]
    rw [hnr, hnr, one _ hb.1 hb.2, write_cell, hnr, if_pos ⟨rfl, hc0, hcW⟩]
  · intro hQ2
    have two : read_row Q (advance Q (advance Q st.NewestRow)) 2 = advance Q st.NewestRow := by
      rw [read_row_eq Q _ 2 hb.1 hb.2 (by omega) hQ2]
      unfold advance
      split_ifs <;> omega
    have ne : ¬ (advance Q st.NewestRow = advance Q (advance Q st.NewestRow)
        ∧ 0 ≤ c ∧ c < W) := by
      unfold advance
      split_ifs <;> omega
    simp only [read_at]
    rw [hnr, hnr, two, write_cell, hnr, if_neg ne, write_cell, if_pos ⟨rfl, hc0, hcW⟩]

/-- Witness of C8 (amended): the rows `1,2,3` and `4,5,6` written into the
initial buffer of the basic source, column 2. -/
theorem roundtrip_after_write_witness :
    read_at 11 (write 11 3 init_state (labels 1)) 1 2 = labels 1 2 ∧
      read_at 11 (write 11 3 (write 11 3 init_state (labels 1)) (labels 4)) 1 2
        = labels 4 2 ∧
      ((2 : Int) ≤ 11 →
        read_at 11 (write 11 3 (write 11 3 init_state (labels 1)) (labels 4)) 2 2
          = labels 1 2) :=
  roundtrip_after_write 11 3 (by decide) init_state (by decide) (by decide) (labels 1)
    (labels 4) 2 (by decide) (by decide)

/-- C9, counterexample: at the parameters written in the generalized source,
row `i = 0` and prepend position `j = 0`, `past_col` returns `0` whereas
`dtsClass*T + pi_col(i, jBlock, permIndex)` with `dtsClass = (L-1) - jRect/T`
is `2`. -/
theorem past_col_differs_from_spec_column :
    hosc.past_col hosc.compiled 0 0 = 0 ∧ hosc.spec_column hosc.compiled 0 0 = 2 ∧
      hosc.past_col hosc.compiled 0 0 ≠ hosc.spec_column hosc.compiled 0 0 := by
  decide

/-- C9, amended: `past_col(i,j)` equals
`(L-1-dtsClass)*T + pi_col(i, jBlock, permIndex)`, where
`dtsClass = (L-1) - jRect/T` is the class index with which `past_row_lookback`
selects the row of `DTS`: the column band is `jRect/T`, the mirror image of the
class index.  It agrees with `dtsClass*T + pi_col(i, jBlock, permIndex)` exactly
when `2*dtsClass = L-1`. -/
theorem past_col_band_is_mirrored_class (p : HoscParams) (hT : p.T ≠ 0) (i j : Int) :
    hosc.past_col p i j
        = (p.L - 1 - hosc.dts_class p j) * p.T
          + pi_col p.T i (Int.tmod (Int.tmod j (hosc.LT p)) p.T)
              (p.M - Int.tdiv j (hosc.LT p)) ∧
      hosc.past_row_lookback p i j
        = arr2 p.DTS (hosc.dts_class p j) (p.M - Int.tdiv j (hosc.LT p)) * p.T
          - pi_row i (Int.tmod (Int.tmod j (hosc.LT p)) p.T)
              (p.M - Int.tdiv j (hosc.LT p)) + i ∧
      (hosc.past_col p i j = hosc.spec_column p i j ↔ 2 * hosc.dts_class p j = p.L - 1) := by
  refine ⟨?_, rfl, ?_⟩
  · simp only [hosc.past_col, hosc.dts_class]
    ring
  · simp only [hosc.past_col, hosc.spec_column, hosc.dts_class, hosc.LT]
    constructor
    · intro h
      have h2 : (2 * Int.tdiv (Int.tmod j (p.L * p.T)) p.T - (p.L - 1)) * p.T = 0 := by
        linarith
      rcases mul_eq_zero.mp h2 with h3 | h3
      · omega
      · exact absurd h3 hT
    · intro h
      have h2 : Int.tdiv (Int.tmod j (p.L * p.T)) p.T
          = p.L - 1 - Int.tdiv (Int.tmod j (p.L * p.T)) p.T := by omega
      rw [← h2]

/-- Witness of C9 (amended) at the parameters written in the source, row
`i = 0`, prepend position `j = 0`. -/
theorem past_col_band_is_mirrored_class_witness :
    hosc.past_col hosc.compiled 0 0
        = (hosc.compiled.L - 1 - hosc.dts_class hosc.compiled 0) * hosc.compiled.T
          + pi_col hosc.compiled.T 0
              (Int.tmod (Int.tmod 0 (hosc.LT hosc.compiled)) hosc.compiled.T)
              (hosc.compiled.M - Int.tdiv 0 (hosc.LT hosc.compiled)) ∧
      hosc.past_row_lookback hosc.compiled 0 0
        = arr2 hosc.compiled.DTS (hosc.dts_class hosc.compiled 0)
              (hosc.compiled.M - Int.tdiv 0 (hosc.LT hosc.compiled)) * hosc.compiled.T
          - pi_row 0 (Int.tmod (Int.tmod 0 (hosc.LT hosc.compiled)) hosc.compiled.T)
              (hosc.compiled.M - Int.tdiv 0 (hosc.LT hosc.compiled)) + 0 ∧
      (hosc.past_col hosc.compiled 0 0 = hosc.spec_column hosc.compiled 0 0 ↔
        2 * hosc.dts_class hosc.compiled 0 = hosc.compiled.L - 1) :=
  past_col_band_is_mirrored_class hosc.compiled (by decide) 0 0

/-- C10, counterexample: for tile size 3, `k = 1` and the cell `(i, j) = (0, 1)`,
the inverse as the specification words it maps the permuted cell to `(1, 0)`,
not back to `(0, 1)`. -/
theorem spec_inverse_is_not_inverse :
    spec_inverse 3 1 (pi_row 0 1 1) (pi_col 3 0 1 1) = (1, 0) ∧
      spec_inverse 3 1 (pi_row 0 1 1) (pi_col 3 0 1 1) ≠ (0, 1) := by
  decide

/-- C10, amended: with the two components exchanged, i.e.
`row' = ((tileSize-(k-1))*r + c) mod tileSize` and `col' = r` for `k ≥ 1`
(identity for `k = 0`), the map undoes the forward permutation on every tile
cell: it sends `(pi_row(i,j,k), pi_col(i,j,k))` to `(i,j)`. -/
theorem spec_inverse_exchanged_undoes_permutation (N k i j : Int) (hN : 1 ≤ N)
    (hk : 0 ≤ k) (hi0 : 0 ≤ i) (hi : i < N) (hj0 : 0 ≤ j) :
    spec_inverse_exchanged N k (pi_row i j k) (pi_col N i j k) = (i, j) := by
  by_cases hk0 : k = 0
  · simp [spec_inverse_exchanged, pi_row, pi_col, hk0]
  · have hnn : 0 ≤ i + (k - 1) * j := add_nonneg hi0 (mul_nonneg (by omega) hj0)
    simp only [spec_inverse_exchanged, pi_row, pi_col, if_neg hk0, Prod.mk.injEq,
      and_true]
    rw [Int.tmod_eq_emod hnn (by omega), Int.add_emod_emod]
    have e : (N - (k - 1)) * j + (i + (k - 1) * j) = i + N * j := by ring
    rw [e, Int.add_mul_emod_self_left]
    exact Int.emod_eq_of_lt hi0 hi

/-- Witness of C10 (amended): tile size 3, `k = 2`, cell `(2, 1)`. -/
theorem spec_inverse_exchanged_undoes_permutation_witness :
    spec_inverse_exchanged 3 2 (pi_row 2 1 2) (pi_col 3 2 1 2) = (2, 1) :=
  spec_inverse_exchanged_undoes_permutation 3 2 2 1 (by decide) (by decide) (by decide)
    (by decide) (by decide)

/-- C11 (inverse tile permutation of the source comment): for the tile sizes
written in the sources (`S = 3`, resp. `T = 2`), every `k` with `0 ≤ k ≤ M` and
every tile cell `(i,j)`, `pi_inv_row` / `pi_inv_col` undo `pi_row` / `pi_col`,
and `pi_row` / `pi_col` undo `pi_inv_row` / `pi_inv_col`. -/
theorem source_inverse_inverts_forward (k i j : Int) (hk0 : 0 ≤ k) (hi0 : 0 ≤ i)
    (hj0 : 0 ≤ j) :
    (k ≤ gsc.compiled.M → i < gsc.compiled.S → j < gsc.compiled.S →
      pi_inv_row gsc.compiled.S (pi_row i j k) (pi_col gsc.compiled.S i j k) k = i ∧
      pi_inv_col (pi_row i j k) (pi_col gsc.compiled.S i j k) k = j ∧
      pi_row (pi_inv_row gsc.compiled.S i j k) (pi_inv_col i j k) k = i ∧
      pi_col gsc.compiled.S (pi_inv_row gsc.compiled.S i j k) (pi_inv_col i j k) k = j) ∧
    (k ≤ hosc.compiled.M → i < hosc.compiled.T → j < hosc.compiled.T →
      pi_inv_row hosc.compiled.T (pi_row i j k) (pi_col hosc.compiled.T i j k) k = i ∧
      pi_inv_col (pi_row i j k) (pi_col hosc.compiled.T i j k) k = j ∧
      pi_row (pi_inv_row hosc.compiled.T i j k) (pi_inv_col i j k) k = i ∧
      pi_col hosc.compiled.T (pi_inv_row hosc.compiled.T i j k) (pi_inv_col i j k) k
        = j) := by
  constructor
  · intro hk hi hj
    have hM : gsc.compiled.M = 2 := rfl
    have hS : gsc.compiled.S = 3 := rfl
    rw [hM] at hk
    rw [hS] at hi hj ⊢
    have a := pi_inv_after_pi 3 k i j (by omega) hk0 (by omega) hi0 hi hj0
    have b := pi_after_pi_inv 3 k i j (by omega) hk0 (by omega) hi0 hj0 hj
    exact ⟨a.1, a.2, b.1, b.2⟩
  · intro hk hi hj
    have hM : hosc.compiled.M = 2 := rfl
    have hT : hosc.compiled.T = 2 := rfl
    rw [hM] at hk
    rw [hT] at hi hj ⊢
    have a := pi_inv_after_pi 2 k i j (by omega) hk0 (by omega) hi0 hi hj0
    have b := pi_after_pi_inv 2 k i j (by omega) hk0 (by omega) hi0 hj0 hj
    exact ⟨a.1, a.2, b.1, b.2⟩

/-- Witness of C11: `k = 2` with the cell `(2, 1)` of the basic tile and the
cell `(1, 0)` of the generalized tile. -/
theorem source_inverse_inverts_forward_witness :
    (pi_inv_row gsc.compiled.S (pi_row 2 1 2) (pi_col gsc.compiled.S 2 1 2) 2 = 2 ∧
      pi_inv_col (pi_row 2 1 2) (pi_col gsc.compiled.S 2 1 2) 2 = 1 ∧
      pi_row (pi_inv_row gsc.compiled.S 2 1 2) (pi_inv_col 2 1 2) 2 = 2 ∧
      pi_col gsc.compiled.S (pi_inv_row gsc.compiled.S 2 1 2) (pi_inv_col 2 1 2) 2 = 1) ∧
    (pi_inv_row hosc.compiled.T (pi_row 1 0 2) (pi_col hosc.compiled.T 1 0 2) 2 = 1 ∧
      pi_inv_col (pi_row 1 0 2) (pi_col hosc.compiled.T 1 0 2) 2 = 0 ∧
      pi_row (pi_inv_row hosc.compiled.T 1 0 2) (pi_inv_col 1 0 2) 2 = 1 ∧
      pi_col hosc.compiled.T (pi_inv_row hosc.compiled.T 1 0 2) (pi_inv_col 1 0 2) 2
        = 0) :=
  ⟨(source_inverse_inverts_forward 2 2 1 (by decide) (by decide) (by decide)).1
      (by decide) (by decide) (by decide),
    (source_inverse_inverts_forward 2 1 0 (by decide) (by decide) (by decide)).2
      (by decide) (by decide) (by decide)⟩

/-- C12 (basic variant, concrete scenario): with the constants written in the
source, `Q` is 11, the six prepend values of the first row are read as zeros
from the zeroed buffer, and the first row printed by `main` is
`0,0,0,0,0,0,1,2,3`. -/
theorem gsc_first_row :
    gsc.Q gsc.compiled = 11 ∧
      prepend_part (gsc.template gsc.compiled) init_state 0 = [0, 0, 0, 0, 0, 0] ∧
      (gsc.main gsc.compiled).out.head? = some [0, 0, 0, 0, 0, 0, 1, 2, 3] := by
  decide

/-- C13 (generalized variant, concrete scenario): with the constants written in
the source, `Q` is 15, the prepend segment has `M*L*T = 8` values, and the two
rows of the first block are printed with an all-zero prepend segment. -/
theorem hosc_first_block_rows :
    hosc.Q hosc.compiled = 15 ∧
      hosc.compiled.M * hosc.compiled.L * hosc.compiled.T = 8 ∧
      (hosc.main hosc.compiled).out.take 2
        = [[0, 0, 0, 0, 0, 0, 0, 0, 1, 2, 3, 4], [0, 0, 0, 0, 0, 0, 0, 0, 5, 6, 7, 8]] := by
  decide

/-- C14 (`L = 1` recovers the basic variant): the generalized address calculator
at `L = 1`, `T = S`, `DTS = [GOLOMB]`, `SCOPE = MEMORY` returns, for every
`0 ≤ i < S` and `0 ≤ j < M*S`, the same lookback distance and column as the
basic address calculator, and the same `Q`. -/
theorem hosc_of_gsc_agrees (p : GscParams) (i j : Int) (_hi0 : 0 ≤ i) (hi : i < p.S)
    (hj0 : 0 ≤ j) (_hj : j < p.M * p.S) :
    hosc.past_row_lookback (hosc.of_gsc p) i j = gsc.past_row_lookback p i j ∧
      hosc.past_col (hosc.of_gsc p) i j = gsc.past_col p i j ∧
      hosc.Q (hosc.of_gsc p) = gsc.Q p := by
  have hS : 0 < p.S := by omega
  have hm := tmod_range j p.S hj0 hS
  have h1 : Int.tmod (Int.tmod j p.S) p.S = Int.tmod j p.S := by
    rw [Int.tmod_eq_emod hm.1 hS.le]
    exact Int.emod_eq_of_lt hm.1 hm.2
  have h2 : Int.tdiv (Int.tmod j p.S) p.S = 0 := by
    rw [Int.tdiv_eq_ediv hm.1 hS.le]
    exact Int.ediv_eq_zero_of_lt hm.1 hm.2
  refine ⟨?_, ?_, rfl⟩
  · simp only [hosc.past_row_lookback, gsc.past_row_lookback, hosc.of_gsc, hosc.LT,
      one_mul, h1, h2]
    simp [arr2]
  · simp only [hosc.past_col, gsc.past_col, hosc.of_gsc, hosc.LT, one_mul, h1, h2]
    simp

/-- Witness of C14 at the basic parameters written in the source, row `i = 2`,
prepend position `j = 4`. -/
theorem hosc_of_gsc_agrees_witness :
    hosc.past_row_lookback (hosc.of_gsc gsc.compiled) 2 4
        = gsc.past_row_lookback gsc.compiled 2 4 ∧
      hosc.past_col (hosc.of_gsc gsc.compiled) 2 4 = gsc.past_col gsc.compiled 2 4 ∧
      hosc.Q (hosc.of_gsc gsc.compiled) = gsc.Q gsc.compiled :=
  hosc_of_gsc_agrees gsc.compiled 2 4 (by decide) (by decide) (by decide) (by decide)

/-- C15 (`Q` is exact): in each variant, for a valid parameter block with at
least one prepend group (`M ≥ 1`), some in-range row index and prepend position
has lookback distance exactly `Q`, and no in-range pair exceeds `Q`; hence `Q` is
the maximum of `past_row_lookback`. -/
theorem lookback_maximum_is_Q (pg : GscParams) (ph : HoscParams) (hg : gsc.Valid pg)
    (hh : hosc.Valid ph) (hMg : 1 ≤ pg.M) (hMh : 1 ≤ ph.M) :
    ((∃ i j : Int, 0 ≤ i ∧ i < pg.S ∧ 0 ≤ j ∧ j < pg.M * pg.S ∧
        gsc.past_row_lookback pg i j = gsc.Q pg) ∧
      ∀ i j : Int, 0 ≤ i → i < pg.S → 0 ≤ j → j < pg.M * pg.S →
        gsc.past_row_lookback pg i j ≤ gsc.Q pg) ∧
    ((∃ i j : Int, 0 ≤ i ∧ i < ph.T ∧ 0 ≤ j ∧ j < ph.M * ph.L * ph.T ∧
        hosc.past_row_lookback ph i j = hosc.Q ph) ∧
      ∀ i j : Int, 0 ≤ i → i < ph.T → 0 ≤ j → j < ph.M * ph.L * ph.T →
        hosc.past_row_lookback ph i j ≤ hosc.Q ph) := by
  refine ⟨⟨?_, fun i j a b c d => (gsc_lookback_bounds pg hg i j a b c d).2⟩,
    ⟨?_, fun i j a b c d => (hosc_lookback_bounds ph hh i j a b c d).2⟩⟩
  · obtain ⟨hS, hlen, hinc, hmem, hmax⟩ := hg
    refine ⟨pg.S - 1, 0, by omega, by omega, le_rfl, by nlinarith, ?_⟩
    have hpos := gsc_at_position pg 0 0 le_rfl le_rfl (by omega)
    simp only [zero_mul, zero_add, sub_zero] at hpos
    have hlast := arr_last_eq_max pg.GOLOMB hinc pg.M pg.MEMORY hlen hmem hmax
    have hk : pg.M ≠ 0 := by omega
    rw [gsc_lookback_eq, hpos.1, hpos.2, hlast, pi_row, if_neg hk, gsc.Q]
    ring
  · obtain ⟨hT, hlen, hrows, ⟨row, hrow, hmem⟩, hmax⟩ := hh
    obtain ⟨n, hn, e⟩ := List.mem_iff_getElem.mp hrow
    obtain ⟨hrl, hrinc⟩ := hrows row hrow
    have hnL : (n : Int) < ph.L := by omega
    have hq : (ph.L - 1 - (n : Int)) * ph.T + ph.T ≤ ph.L * ph.T := by nlinarith
    have hLT : ph.L * ph.T ≤ ph.M * ph.L * ph.T := by
      have : 0 ≤ (ph.M - 1) * (ph.L * ph.T) :=
        mul_nonneg (by omega) (mul_nonneg (by omega) (by omega))
      nlinarith
    refine ⟨ph.T - 1, (ph.L - 1 - (n : Int)) * ph.T, by omega, by omega,
      mul_nonneg (by omega) (by omega), by omega, ?_⟩
    have hpos := hosc_at_position ph 0 (ph.L - 1 - (n : Int)) 0 le_rfl (by omega)
      (by omega) le_rfl (by omega)
    simp only [zero_mul, zero_add, add_zero, sub_zero] at hpos
    have hcls : ph.L - 1 - (ph.L - 1 - (n : Int)) = (n : Int) := by ring
    have hlast : arr2 ph.DTS (n : Int) ph.M = ph.SCOPE := by
      simp only [arr2, Int.toNat_ofNat, List.getD_eq_getElem _ _ hn, e]
      exact arr_last_eq_max row hrinc ph.M ph.SCOPE hrl hmem (hmax row hrow)
    have hk : ph.M ≠ 0 := by omega
    rw [hosc_lookback_eq, hpos.1, hpos.2.2.1, hpos.2.2.2, hcls, hlast, pi_row, if_neg hk,
      hosc.Q]
    ring

/-- Witness of C15 at the parameters written in the two sources. -/
theorem lookback_maximum_is_Q_witness :
    ((∃ i j : Int, 0 ≤ i ∧ i < gsc.compiled.S ∧ 0 ≤ j ∧
        j < gsc.compiled.M * gsc.compiled.S ∧
        gsc.past_row_lookback gsc.compiled i j = gsc.Q gsc.compiled) ∧
      ∀ i j : Int, 0 ≤ i → i < gsc.compiled.S → 0 ≤ j →
        j < gsc.compiled.M * gsc.compiled.S →
        gsc.past_row_lookback gsc.compiled i j ≤ gsc.Q gsc.compiled) ∧
    ((∃ i j : Int, 0 ≤ i ∧ i < hosc.compiled.T ∧ 0 ≤ j ∧
        j < hosc.compiled.M * hosc.compiled.L * hosc.compiled.T ∧
        hosc.past_row_lookback hosc.compiled i j = hosc.Q hosc.compiled) ∧
      ∀ i j : Int, 0 ≤ i → i < hosc.compiled.T → 0 ≤ j →
        j < hosc.compiled.M * hosc.compiled.L * hosc.compiled.T →
        hosc.past_row_lookback hosc.compiled i j ≤ hosc.Q hosc.compiled) :=
  lookback_maximum_is_Q gsc.compiled hosc.compiled (by decide) (by decide) (by decide)
    (by decide)

/-- C16, counterexample: in the buffer of the basic source (`Q = 11`, `W = 3`)
after the rows `1,2,3` and `4,5,6` have been written, the read expression with
lookback distance `0` and with lookback distance `Q+1 = 12` yields a buffer value
(`0`, resp. `4`) and no failure. -/
theorem out_of_range_lookback_returns_value :
    read_result 11 3 (writes 11 3 [labels 1, labels 4]) 0 0 = some 0 ∧
      read_result 11 3 (writes 11 3 [labels 1, labels 4]) 12 0 = some 4 ∧
      read_result 11 3 (writes 11 3 [labels 1, labels 4]) 0 0 ≠ none ∧
      read_result 11 3 (writes 11 3 [labels 1, labels 4]) 12 0 ≠ none := by
  decide

/-- C16, amended: the read expression performs no range check on the lookback
distance.  With the cursor in `[0, Q)` and a column in `[0, W)`, a read with
lookback distance `0` yields the value stored at lookback distance `Q` (the
oldest row), and a read with lookback distance `Q+1` yields the value stored at
lookback distance `1` (the newest row); neither fails. -/
theorem out_of_range_read_is_silent (Q W : Int) (hQ : 1 ≤ Q) (st : EncState)
    (h0 : 0 ≤ st.NewestRow) (hlt : st.NewestRow < Q) (c : Int) (hc0 : 0 ≤ c)
    (hcW : c < W) :
    read_result Q W st 0 c = some (read_at Q st Q c) ∧
      read_result Q W st (Q + 1) c = some (read_at Q st 1 c) := by
  have hQQ := read_row_eq Q st.NewestRow Q h0 hlt hQ le_rfl
  have h11 := read_row_eq Q st.NewestRow 1 h0 hlt le_rfl hQ
  have e0 : read_row Q st.NewestRow 0 = read_row Q st.NewestRow Q := by
    rw [hQQ]
    unfold read_row
    rw [Int.tmod_eq_emod (by omega) (by omega)]
    have : st.NewestRow + 1 - 0 + Q = st.NewestRow + 1 + Q := by ring
    rw [this, Int.add_emod_self]
    split
    · have : st.NewestRow + 1 = Q := by omega
      rw [this, Int.emod_self]; omega
    · rw [Int.emod_eq_of_lt (by omega) (by omega)]; omega
  have e1 : read_row Q st.NewestRow (Q + 1) = read_row Q st.NewestRow 1 := by
    rw [h11]
    unfold read_row
    have : st.NewestRow + 1 - (Q + 1) + Q = st.NewestRow := by ring
    rw [this, Int.tmod_eq_emod h0 (by omega), Int.emod_eq_of_lt h0 hlt]
    split <;> omega
  have rQ : 0 ≤ read_row Q st.NewestRow Q ∧ read_row Q st.NewestRow Q < Q := by
    rw [hQQ]; split <;> omega
  have r1 : 0 ≤ read_row Q st.NewestRow 1 ∧ read_row Q st.NewestRow 1 < Q := by
    rw [h11]; split <;> omega
  constructor
  · simp only [read_result, read_at, e0]
    rw [if_pos ⟨rQ.1, rQ.2, hc0, hcW⟩]
  · simp only [read_result, read_at, e1]
    rw [if_pos ⟨r1.1, r1.2, hc0, hcW⟩]

/-- Witness of C16 (amended): the buffer of the basic source after the rows
`1,2,3` and `4,5,6`, column 1. -/
theorem out_of_range_read_is_silent_witness :
    read_result 11 3 (writes 11 3 [labels 1, labels 4]) 0 1
        = some (read_at 11 (writes 11 3 [labels 1, labels 4]) 11 1) ∧
      read_result 11 3 (writes 11 3 [labels 1, labels 4]) (11 + 1) 1
        = some (read_at 11 (writes 11 3 [labels 1, labels 4]) 1 1) :=
  out_of_range_read_is_silent 11 3 (by decide) (writes 11 3 [labels 1, labels 4])
    (by decide) (by decide) 1 (by decide) (by decide)

/-- C17 (parameter-table indexing): for a valid parameter block and a prepend
position `j` in range, `perm` lies in `[1, M]` (it is `M - g` on the `g`-th
group of positions), `j_block` lies in `[0, tileSize)` and, in the generalized
variant, `class` lies in `[0, L-1]`; the accesses `GOLOMB[perm]` and
`DTS[class][perm]` are inside the arrays and the address calculator calls
`pi_row` / `pi_col` with `k = perm ≠ 0`. -/
theorem table_indexing_in_bounds (pg : GscParams) (hg : gsc.Valid pg) (jg : Int)
    (hjg0 : 0 ≤ jg) (hjg : jg < pg.M * pg.S) (ph : HoscParams) (hh : hosc.Valid ph)
    (jh : Int) (hjh0 : 0 ≤ jh) (hjh : jh < ph.M * ph.L * ph.T) :
    (1 ≤ gsc.perm pg jg ∧ gsc.perm pg jg ≤ pg.M ∧
      0 ≤ gsc.j_block pg jg ∧ gsc.j_block pg jg < pg.S ∧
      (gsc.perm pg jg).toNat < pg.GOLOMB.length ∧
      (∀ g r : Int, 0 ≤ g → g < pg.M → 0 ≤ r → r < pg.S →
        gsc.perm pg (g * pg.S + r) = pg.M - g ∧ gsc.j_block pg (g * pg.S + r) = r) ∧
      ∀ i : Int,
        gsc.past_row_lookback pg i jg
          = arr pg.GOLOMB (gsc.perm pg jg) * pg.S - gsc.j_block pg jg + i ∧
        gsc.past_col pg i jg
          = Int.tmod (i + (gsc.perm pg jg - 1) * gsc.j_block pg jg) pg.S) ∧
    (1 ≤ hosc.perm ph jh ∧ hosc.perm ph jh ≤ ph.M ∧
      0 ≤ hosc.j_block ph jh ∧ hosc.j_block ph jh < ph.T ∧
      0 ≤ hosc.dts_class ph jh ∧ hosc.dts_class ph jh ≤ ph.L - 1 ∧
      (∃ row, ph.DTS[(hosc.dts_class ph jh).toNat]? = some row ∧
        (hosc.perm ph jh).toNat < row.length) ∧
      (∀ g q r : Int, 0 ≤ g → g < ph.M → 0 ≤ q → q < ph.L → 0 ≤ r → r < ph.T →
        hosc.perm ph (g * ph.L * ph.T + q * ph.T + r) = ph.M - g ∧
        hosc.dts_class ph (g * ph.L * ph.T + q * ph.T + r) = ph.L - 1 - q ∧
        hosc.j_block ph (g * ph.L * ph.T + q * ph.T + r) = r) ∧
      ∀ i : Int,
        hosc.past_row_lookback ph i jh
          = arr2 ph.DTS (hosc.dts_class ph jh) (hosc.perm ph jh) * ph.T
            - hosc.j_block ph jh + i ∧
        hosc.past_col ph i jh
          = hosc.c_class ph jh * ph.T
            + Int.tmod (i + (hosc.perm ph jh - 1) * hosc.j_block ph jh) ph.T) := by
  constructor
  · obtain ⟨hS, hlen, -, -, -⟩ := hg
    obtain ⟨hp1, hpM, hb0, hbS⟩ := gsc_split pg hS jg hjg0 hjg
    have hk : gsc.perm pg jg ≠ 0 := by unfold gsc.perm; omega
    refine ⟨hp1, hpM, hb0, hbS, ?_, ?_, ?_⟩
    · unfold gsc.perm; omega
    · intro g r hg0 _ hr0 hr
      exact gsc_at_position pg g r hg0 hr0 hr
    · intro i
      rw [gsc_lookback_eq, gsc_col_eq, pi_row, pi_col, if_neg hk, if_neg hk]
      exact ⟨rfl, rfl⟩
  · obtain ⟨hT, hlen, hrows, -, -⟩ := hh
    have hL : 0 ≤ ph.L := by omega
    obtain ⟨hp1, hpM, hb0, hbT, hc0, hcL⟩ := hosc_split ph hT hL jh hjh0 hjh
    have hk : hosc.perm ph jh ≠ 0 := by unfold hosc.perm; omega
    have hd0 : 0 ≤ hosc.dts_class ph jh := by unfold hosc.dts_class; omega
    have hd1 : hosc.dts_class ph jh ≤ ph.L - 1 := by unfold hosc.dts_class; omega
    have hlt : (hosc.dts_class ph jh).toNat < ph.DTS.length := by omega
    refine ⟨hp1, hpM, hb0, hbT, hd0, hd1, ?_, ?_, ?_⟩
    · refine ⟨ph.DTS[(hosc.dts_class ph jh).toNat], List.getElem?_eq_getElem hlt, ?_⟩
      have := (hrows _ (List.getElem_mem hlt)).1
      unfold hosc.perm
      omega
    · intro g q r hg0 _ hq0 hq hr0 hr
      have := hosc_at_position ph g q r hg0 hq0 hq hr0 hr
      exact ⟨this.1, this.2.2.1, this.2.2.2⟩
    · intro i
      rw [hosc_lookback_eq, hosc_col_eq, pi_row, pi_col, if_neg hk, if_neg hk]
      exact ⟨rfl, rfl⟩

/-- Witness of C17 at the parameters written in the two sources, prepend
positions `j = 4` (basic) and `j = 5` (generalized). -/
theorem table_indexing_in_bounds_witness :
    (1 ≤ gsc.perm gsc.compiled 4 ∧ gsc.perm gsc.compiled 4 ≤ gsc.compiled.M ∧
      0 ≤ gsc.j_block gsc.compiled 4 ∧ gsc.j_block gsc.compiled 4 < gsc.compiled.S ∧
      (gsc.perm gsc.compiled 4).toNat < gsc.compiled.GOLOMB.length ∧
      (∀ g r : Int, 0 ≤ g → g < gsc.compiled.M → 0 ≤ r → r < gsc.compiled.S →
        gsc.perm gsc.compiled (g * gsc.compiled.S + r) = gsc.compiled.M - g ∧
        gsc.j_block gsc.compiled (g * gsc.compiled.S + r) = r) ∧
      ∀ i : Int,
        gsc.past_row_lookback gsc.compiled i 4
          = arr gsc.compiled.GOLOMB (gsc.perm gsc.compiled 4) * gsc.compiled.S
            - gsc.j_block gsc.compiled 4 + i ∧
        gsc.past_col gsc.compiled i 4
          = Int.tmod (i + (gsc.perm gsc.compiled 4 - 1) * gsc.j_block gsc.compiled 4)
              gsc.compiled.S) ∧
    (1 ≤ hosc.perm hosc.compiled 5 ∧ hosc.perm hosc.compiled 5 ≤ hosc.compiled.M ∧
      0 ≤ hosc.j_block hosc.compiled 5 ∧ hosc.j_block hosc.compiled 5 < hosc.compiled.T ∧
      0 ≤ hosc.dts_class hosc.compiled 5 ∧
      hosc.dts_class hosc.compiled 5 ≤ hosc.compiled.L - 1 ∧
      (∃ row, hosc.compiled.DTS[(hosc.dts_class hosc.compiled 5).toNat]? = some row ∧
        (hosc.perm hosc.compiled 5).toNat < row.length) ∧
      (∀ g q r : Int, 0 ≤ g → g < hosc.compiled.M → 0 ≤ q → q < hosc.compiled.L →
        0 ≤ r → r < hosc.compiled.T →
        hosc.perm hosc.compiled (g * hosc.compiled.L * hosc.compiled.T
          + q * hosc.compiled.T + r) = hosc.compiled.M - g ∧
        hosc.dts_class hosc.compiled (g * hosc.compiled.L * hosc.compiled.T
          + q * hosc.compiled.T + r) = hosc.compiled.L - 1 - q ∧
        hosc.j_block hosc.compiled (g * hosc.compiled.L * hosc.compiled.T
          + q * hosc.compiled.T + r) = r) ∧
      ∀ i : Int,
        hosc.past_row_lookback hosc.compiled i 5
          = arr2 hosc.compiled.DTS (hosc.dts_class hosc.compiled 5)
              (hosc.perm hosc.compiled 5) * hosc.compiled.T
            - hosc.j_block hosc.compiled 5 + i ∧
        hosc.past_col hosc.compiled i 5
          = hosc.c_class hosc.compiled 5 * hosc.compiled.T
            + Int.tmod (i + (hosc.perm hosc.compiled 5 - 1) * hosc.j_block hosc.compiled 5)
                hosc.compiled.T) :=
  table_indexing_in_bounds gsc.compiled (by decide) 4 (by decide) (by decide)
    hosc.compiled (by decide) 5 (by decide) (by decide)

/-- C19 (every history symbol is consumed once per permutation class): in the
generalized variant, for every perm index `1 ≤ k ≤ M`, column band `0 ≤ q < L`
and tile cell `(r, c)`, exactly one pair `(i, jb)` with `0 ≤ i, jb < T` satisfies,
for `j = (M-k)*L*T + q*T + jb`, `past_row_lookback(i,j) - i = DTS[L-1-q][k]*T - r`
and `past_col(i,j) = q*T + c`. -/
theorem each_cell_read_exactly_once (p : HoscParams) (hT : 1 ≤ p.T) (k q r c : Int)
    (hk1 : 1 ≤ k) (hkM : k ≤ p.M) (hq0 : 0 ≤ q) (hqL : q < p.L) (hr0 : 0 ≤ r)
    (hrT : r < p.T) (hc0 : 0 ≤ c) (hcT : c < p.T) :
    ∃! ij : Int × Int, 0 ≤ ij.1 ∧ ij.1 < p.T ∧ 0 ≤ ij.2 ∧ ij.2 < p.T ∧
      hosc.past_row_lookback p ij.1 ((p.M - k) * p.L * p.T + q * p.T + ij.2) - ij.1
        = arr2 p.DTS (p.L - 1 - q) k * p.T - r ∧
      hosc.past_col p ij.1 ((p.M - k) * p.L * p.T + q * p.T + ij.2) = q * p.T + c := by
  have hk : k ≠ 0 := by omega
  have key : ∀ i jb : Int, 0 ≤ jb → jb < p.T →
      hosc.past_row_lookback p i ((p.M - k) * p.L * p.T + q * p.T + jb)
          = arr2 p.DTS (p.L - 1 - q) k * p.T - jb + i ∧
        hosc.past_col p i ((p.M - k) * p.L * p.T + q * p.T + jb)
          = q * p.T + Int.tmod (i + (k - 1) * jb) p.T := by
    intro i jb hjb0 hjb
    obtain ⟨h1, h2, h3, h4⟩ := hosc_at_position p (p.M - k) q jb (by omega) hq0 hqL hjb0 hjb
    have hMk : p.M - (p.M - k) = k := by ring
    rw [hosc_lookback_eq, hosc_col_eq, h1, h2, h3, h4, hMk, pi_row, pi_col, if_neg hk,
      if_neg hk]
    exact ⟨rfl, rfl⟩
  obtain ⟨s0, sN, se⟩ := shear_surj p.T k r c hT hk1 hr0 hc0 hcT
  refine ⟨((c - (k - 1) * r) % p.T, r), ⟨s0, sN, hr0, hrT, ?_, ?_⟩, ?_⟩
  · rw [(key _ r hr0 hrT).1]; ring
  · rw [(key _ r hr0 hrT).2, se]
  · rintro ⟨i, jb⟩ ⟨hi0, hiT, hjb0, hjbT, e1, e2⟩
    simp only at hi0 hiT hjb0 hjbT e1 e2
    rw [(key i jb hjb0 hjbT).1] at e1
    rw [(key i jb hjb0 hjbT).2] at e2
    have hjb : jb = r := by linarith
    subst hjb
    have e3 : Int.tmod (i + (k - 1) * jb) p.T
        = Int.tmod ((c - (k - 1) * jb) % p.T + (k - 1) * jb) p.T := by
      rw [se]; linarith
    have := shear_inj p.T k jb i _ hi0 hiT s0 sN e3
    rw [this]

/-- Witness of C19 at the parameters written in the source: `k = 2`, band
`q = 1`, tile cell `(r, c) = (1, 0)`. -/
theorem each_cell_read_exactly_once_witness :
    ∃! ij : Int × Int, 0 ≤ ij.1 ∧ ij.1 < hosc.compiled.T ∧ 0 ≤ ij.2 ∧
      ij.2 < hosc.compiled.T ∧
      hosc.past_row_lookback hosc.compiled ij.1
          ((hosc.compiled.M - 2) * hosc.compiled.L * hosc.compiled.T
            + 1 * hosc.compiled.T + ij.2) - ij.1
        = arr2 hosc.compiled.DTS (hosc.compiled.L - 1 - 1) 2 * hosc.compiled.T - 1 ∧
      hosc.past_col hosc.compiled ij.1
          ((hosc.compiled.M - 2) * hosc.compiled.L * hosc.compiled.T
            + 1 * hosc.compiled.T + ij.2) = 1 * hosc.compiled.T + 0 :=
  each_cell_read_exactly_once hosc.compiled (by decide) 2 1 1 0 (by decide) (by decide)
    (by decide) (by decide) (by decide) (by decide) (by decide) (by decide)

/-- C18 (closed form of the output of the generalized scheduler): for a valid
parameter block, every block `c` among the `B` blocks produced, every row
`i < T` and every prepend position `j < M*L*T`, with `perm`, `jb`, `q` the
local variables of the address calculator and `D = DTS[L-1-q][perm]`: the line
of row `i` of block `c` has `M*L*T + L*T` values, its `j`-th value is `0` when
`c < D` and otherwise
`((c-D)*T + jb)*(L*T) + q*T + ((i + (perm-1)*jb) mod T) + 1`, which is the label
at column `past_col(i,j)` of row `jb` of block `c-D`; `D ≥ 1`, so the value comes
from a strictly earlier block; and the append values are
`(c*T+i)*(L*T)+1, ..., (c*T+i+1)*(L*T)`. -/
theorem hosc_output_closed_form (p : HoscParams) (hv : hosc.Valid p) (B c i j : Nat)
    (hc : c < B) (hi : (i : Int) < p.T) (hj : (j : Int) < p.M * p.L * p.T) :
    ∃ (row : List Nat) (v : Nat),
      (run (hosc.template p) B).out[c * p.T.toNat + i]? = some row ∧
      row.length = (p.M * p.L * p.T).toNat + (p.L * p.T).toNat ∧
      row[j]? = some v ∧
      1 ≤ arr2 p.DTS (hosc.dts_class p j) (hosc.perm p j) ∧
      (v : Int) =
        (if (c : Int) < arr2 p.DTS (hosc.dts_class p j) (hosc.perm p j) then 0
        else (((c : Int) - arr2 p.DTS (hosc.dts_class p j) (hosc.perm p j)) * p.T
            + hosc.j_block p j) * (p.L * p.T)
          + hosc.c_class p j * p.T
          + ((i : Int) + (hosc.perm p j - 1) * hosc.j_block p j) % p.T + 1) ∧
      (v : Int) =
        (if (c : Int) < arr2 p.DTS (hosc.dts_class p j) (hosc.perm p j) then 0
        else (((c : Int) - arr2 p.DTS (hosc.dts_class p j) (hosc.perm p j)) * p.T
            + hosc.j_block p j) * (p.L * p.T)
          + hosc.past_col p i j + 1) ∧
      ∀ a : Nat, (a : Int) < p.L * p.T →
        row[(p.M * p.L * p.T).toNat + a]?
          = some ((c * p.T.toNat + i) * (p.L * p.T).toNat + 1 + a) := by
  have hbnd := hosc_lookback_bounds p hv i j (by omega) hi (by omega) hj
  obtain ⟨hT, hlen, hrows, -, -⟩ := hv
  have hL : 0 ≤ p.L := by omega
  have hcolb := hosc_col_bounds p hT hL i j (by omega) (by omega) hj
  obtain ⟨hp1, hpM, hb0, hbT, hc0, hcL⟩ := hosc_split p hT hL j (by omega) hj
  have hrow : p.DTS.getD (hosc.dts_class p j).toNat [] ∈ p.DTS :=
    arr2_row p.DTS _ (by unfold hosc.dts_class; omega) (by unfold hosc.dts_class; omega)
  have hD1 : 1 ≤ arr2 p.DTS (hosc.dts_class p j) (hosc.perm p j) :=
    arr_pos _ (hrows _ hrow).2 _ hp1 (by have := (hrows _ hrow).1; unfold hosc.perm; omega)
  have hTn : ((p.T.toNat : Nat) : Int) = p.T := Int.toNat_of_nonneg (by omega)
  have hiN : i < p.T.toNat := by omega
  have hm : c * p.T.toNat + i < B * p.T.toNat := by
    have : (c + 1) * p.T.toNat ≤ B * p.T.toNat := Nat.mul_le_mul_right _ hc
    rw [Nat.succ_mul] at this
    omega
  have hmod : (c * p.T.toNat + i) % p.T.toNat = i := Nat.mul_add_mod_of_lt hiN
  have hjP : j < (p.M * p.L * p.T).toNat := by omega
  have hk : hosc.perm p j ≠ 0 := by unfold hosc.perm; omega
  have hd : hosc.past_row_lookback p i j
      = arr2 p.DTS (hosc.dts_class p j) (hosc.perm p j) * p.T - hosc.j_block p j + i := by
    rw [hosc_lookback_eq, pi_row, if_neg hk]
  have hnn : 0 ≤ (i : Int) + (hosc.perm p j - 1) * hosc.j_block p j :=
    add_nonneg (by omega) (mul_nonneg (by unfold hosc.perm; omega) hb0)
  have hcol : hosc.past_col p i j
      = hosc.c_class p j * p.T
        + ((i : Int) + (hosc.perm p j - 1) * hosc.j_block p j) % p.T := by
    rw [hosc_col_eq, pi_col, if_neg hk, Int.tmod_eq_emod hnn (by omega)]
  have hval := read_label_rows (hosc.Q p) (p.L * p.T) (c * p.T.toNat + i)
    (hosc.past_row_lookback p i j) (hosc.past_col p i j) hbnd.1 hbnd.2 hcolb.1 hcolb.2
  have hcast : (((c * p.T.toNat + i : Nat)) : Int) = (c : Int) * p.T + i := by
    push_cast; rw [hTn]
  rw [hcast] at hval
  have hpre := printed_row_prepend (hosc.template p) (c * p.T.toNat + i) j hjP
  have hmodt : (c * p.T.toNat + i) % (hosc.template p).N.toNat = i := hmod
  rw [hmodt] at hpre
  have hform : ((read_at (hosc.Q p) (writes (hosc.Q p) (p.L * p.T)
        (label_rows (p.L * p.T) (c * p.T.toNat + i)))
        (hosc.past_row_lookback p i j) (hosc.past_col p i j) : Nat) : Int) =
      (if (c : Int) < arr2 p.DTS (hosc.dts_class p j) (hosc.perm p j) then 0
        else (((c : Int) - arr2 p.DTS (hosc.dts_class p j) (hosc.perm p j)) * p.T
            + hosc.j_block p j) * (p.L * p.T)
          + hosc.past_col p i j + 1) := by
    rw [hval, hd]
    have hjb0 : 0 ≤ hosc.j_block p j := hb0
    have hjbT : hosc.j_block p j < p.T := hbT
    by_cases hcD : (c : Int) < arr2 p.DTS (hosc.dts_class p j) (hosc.perm p j)
    · have hgt : ¬ (arr2 p.DTS (hosc.dts_class p j) (hosc.perm p j) * p.T
          - hosc.j_block p j + i ≤ (c : Int) * p.T + i) := by
        have : ((c : Int) + 1) * p.T
            ≤ arr2 p.DTS (hosc.dts_class p j) (hosc.perm p j) * p.T :=
          mul_le_mul_of_nonneg_right (by omega) (by omega)
        intro h
        nlinarith
      rw [if_neg hgt, if_pos hcD]
    · have hle : arr2 p.DTS (hosc.dts_class p j) (hosc.perm p j) * p.T
          - hosc.j_block p j + i ≤ (c : Int) * p.T + i := by
        have : arr2 p.DTS (hosc.dts_class p j) (hosc.perm p j) * p.T ≤ (c : Int) * p.T :=
          mul_le_mul_of_nonneg_right (by omega) (by omega)
        linarith
      rw [if_pos hle, if_neg hcD]
      ring
  have hform2 : ((read_at (hosc.Q p) (writes (hosc.Q p) (p.L * p.T)
        (label_rows (p.L * p.T) (c * p.T.toNat + i)))
        (hosc.past_row_lookback p i j) (hosc.past_col p i j) : Nat) : Int) =
      (if (c : Int) < arr2 p.DTS (hosc.dts_class p j) (hosc.perm p j) then 0
        else (((c : Int) - arr2 p.DTS (hosc.dts_class p j) (hosc.perm p j)) * p.T
            + hosc.j_block p j) * (p.L * p.T)
          + hosc.c_class p j * p.T
          + ((i : Int) + (hosc.perm p j - 1) * hosc.j_block p j) % p.T + 1) := by
    rw [hform]
    by_cases hcD : (c : Int) < arr2 p.DTS (hosc.dts_class p j) (hosc.perm p j)
    · rw [if_pos hcD, if_pos hcD]
    · rw [if_neg hcD, if_neg hcD, hcol]
      ring
  refine ⟨printed_row (hosc.template p) (c * p.T.toNat + i), _,
    run_out_getElem (hosc.template p) B _ hm, printed_row_length _ _, hpre, hD1,
    hform2, hform, ?_⟩
  · intro a ha
    have ha2 : a < (hosc.template p).W.toNat := by
      show a < (p.L * p.T).toNat
      omega
    exact printed_row_append (hosc.template p) (c * p.T.toNat + i) a ha2

/-- Witness of C18 at the parameters written in the source: `main` produces
`SCOPE+3 = 10` blocks; block `c = 4`, row `i = 1`, prepend position `j = 1`. -/
theorem hosc_output_closed_form_witness :
    ∃ (row : List Nat) (v : Nat),
      (run (hosc.template hosc.compiled) 10).out[4 * hosc.compiled.T.toNat + 1]?
        = some row ∧
      row.length = (hosc.compiled.M * hosc.compiled.L * hosc.compiled.T).toNat
        + (hosc.compiled.L * hosc.compiled.T).toNat ∧
      row[1]? = some v ∧
      1 ≤ arr2 hosc.compiled.DTS (hosc.dts_class hosc.compiled (1 : Nat))
        (hosc.perm hosc.compiled (1 : Nat)) ∧
      (v : Int) =
        (if ((4 : Nat) : Int) < arr2 hosc.compiled.DTS (hosc.dts_class hosc.compiled (1 : Nat))
            (hosc.perm hosc.compiled (1 : Nat)) then 0
        else ((((4 : Nat) : Int) - arr2 hosc.compiled.DTS
              (hosc.dts_class hosc.compiled (1 : Nat))
              (hosc.perm hosc.compiled (1 : Nat))) * hosc.compiled.T
            + hosc.j_block hosc.compiled (1 : Nat)) * (hosc.compiled.L * hosc.compiled.T)
          + hosc.c_class hosc.compiled (1 : Nat) * hosc.compiled.T
          + (((1 : Nat) : Int) + (hosc.perm hosc.compiled (1 : Nat) - 1)
              * hosc.j_block hosc.compiled (1 : Nat)) % hosc.compiled.T + 1) ∧
      (v : Int) =
        (if ((4 : Nat) : Int) < arr2 hosc.compiled.DTS (hosc.dts_class hosc.compiled (1 : Nat))
            (hosc.perm hosc.compiled (1 : Nat)) then 0
        else ((((4 : Nat) : Int) - arr2 hosc.compiled.DTS
              (hosc.dts_class hosc.compiled (1 : Nat))
              (hosc.perm hosc.compiled (1 : Nat))) * hosc.compiled.T
            + hosc.j_block hosc.compiled (1 : Nat)) * (hosc.compiled.L * hosc.compiled.T)
          + hosc.past_col hosc.compiled ((1 : Nat) : Int) ((1 : Nat) : Int) + 1) ∧
      ∀ a : Nat, (a : Int) < hosc.compiled.L * hosc.compiled.T →
        row[(hosc.compiled.M * hosc.compiled.L * hosc.compiled.T).toNat + a]?
          = some ((4 * hosc.compiled.T.toNat + 1)
              * (hosc.compiled.L * hosc.compiled.T).toNat + 1 + a) :=
  hosc_output_closed_form hosc.compiled (by decide) 10 4 1 1 (by decide) (by decide)
    (by decide)

/-- C20 (ring-buffer index safety): for valid parameter blocks, in the state
reached by the scheduler loop after any number `n` of row encodings (the state
after `B` blocks is the one after `B*N` row encodings), the cursor is in
`[0, Q)`; for every in-range row index and prepend position the expression
`NewestRow + 1 - past_row_lookback(i,j) + Q` is non-negative, the row index
`(NewestRow+1-past_row_lookback(i,j)+Q) % Q` is in `[0, Q)` and `past_col(i,j)`
is below the row width, so the read is inside the array; and the row written
next, at the advanced cursor, is in `[0, Q)`. -/
theorem ring_buffer_indices_in_bounds (pg : GscParams) (hg : gsc.Valid pg)
    (ig jg : Int) (hig0 : 0 ≤ ig) (hig : ig < pg.S) (hjg0 : 0 ≤ jg)
    (hjg : jg < pg.M * pg.S) (ph : HoscParams) (hh : hosc.Valid ph) (ih jh : Int)
    (hih0 : 0 ≤ ih) (hih : ih < ph.T) (hjh0 : 0 ≤ jh) (hjh : jh < ph.M * ph.L * ph.T)
    (n : Nat) :
    ((∀ B : Nat, run (gsc.template pg) B = row_steps (gsc.template pg) (B * pg.S.toNat)) ∧
      0 ≤ (row_steps (gsc.template pg) n).st.NewestRow ∧
      (row_steps (gsc.template pg) n).st.NewestRow < gsc.Q pg ∧
      0 ≤ (row_steps (gsc.template pg) n).st.NewestRow + 1
          - gsc.past_row_lookback pg ig jg + gsc.Q pg ∧
      0 ≤ read_row (gsc.Q pg) (row_steps (gsc.template pg) n).st.NewestRow
          (gsc.past_row_lookback pg ig jg) ∧
      read_row (gsc.Q pg) (row_steps (gsc.template pg) n).st.NewestRow
          (gsc.past_row_lookback pg ig jg) < gsc.Q pg ∧
      0 ≤ gsc.past_col pg ig jg ∧ gsc.past_col pg ig jg < pg.S ∧
      read_result (gsc.Q pg) pg.S (row_steps (gsc.template pg) n).st
          (gsc.past_row_lookback pg ig jg) (gsc.past_col pg ig jg) ≠ none ∧
      0 ≤ advance (gsc.Q pg) (row_steps (gsc.template pg) n).st.NewestRow ∧
      advance (gsc.Q pg) (row_steps (gsc.template pg) n).st.NewestRow < gsc.Q pg) ∧
    ((∀ B : Nat,
        run (hosc.template ph) B = row_steps (hosc.template ph) (B * ph.T.toNat)) ∧
      0 ≤ (row_steps (hosc.template ph) n).st.NewestRow ∧
      (row_steps (hosc.template ph) n).st.NewestRow < hosc.Q ph ∧
      0 ≤ (row_steps (hosc.template ph) n).st.NewestRow + 1
          - hosc.past_row_lookback ph ih jh + hosc.Q ph ∧
      0 ≤ read_row (hosc.Q ph) (row_steps (hosc.template ph) n).st.NewestRow
          (hosc.past_row_lookback ph ih jh) ∧
      read_row (hosc.Q ph) (row_steps (hosc.template ph) n).st.NewestRow
          (hosc.past_row_lookback ph ih jh) < hosc.Q ph ∧
      0 ≤ hosc.past_col ph ih jh ∧ hosc.past_col ph ih jh < ph.L * ph.T ∧
      read_result (hosc.Q ph) (ph.L * ph.T) (row_steps (hosc.template ph) n).st
          (hosc.past_row_lookback ph ih jh) (hosc.past_col ph ih jh) ≠ none ∧
      0 ≤ advance (hosc.Q ph) (row_steps (hosc.template ph) n).st.NewestRow ∧
      advance (hosc.Q ph) (row_steps (hosc.template ph) n).st.NewestRow < hosc.Q ph) := by
  constructor
  · have hb := gsc_lookback_bounds pg hg ig jg hig0 hig hjg0 hjg
    have hc := gsc_col_bounds pg hg.1 ig jg hig0 hjg0 hjg
    obtain ⟨a1, a2, a3, a4, a5, a6, a7⟩ :=
      row_steps_indices (gsc.template pg) n (gsc.past_row_lookback pg ig jg) hb.1 hb.2
    refine ⟨fun B => run_eq_row_steps (gsc.template pg) B, a1, a2, a3, a4, a5, hc.1, hc.2,
      ?_, a6, a7⟩
    have a4b : 0 ≤ read_row (gsc.Q pg) (row_steps (gsc.template pg) n).st.NewestRow
        (gsc.past_row_lookback pg ig jg) := a4
    have a5b : read_row (gsc.Q pg) (row_steps (gsc.template pg) n).st.NewestRow
        (gsc.past_row_lookback pg ig jg) < gsc.Q pg := a5
    rw [read_result, if_pos ⟨a4b, a5b, hc.1, hc.2⟩]
    exact Option.some_ne_none _
  · have hb := hosc_lookback_bounds ph hh ih jh hih0 hih hjh0 hjh
    have hL : 0 ≤ ph.L := by have := hh.2.1; omega
    have hc := hosc_col_bounds ph hh.1 hL ih jh hih0 hjh0 hjh
    obtain ⟨a1, a2, a3, a4, a5, a6, a7⟩ :=
      row_steps_indices (hosc.template ph) n (hosc.past_row_lookback ph ih jh) hb.1 hb.2
    refine ⟨fun B => run_eq_row_steps (hosc.template ph) B, a1, a2, a3, a4, a5, hc.1,
      hc.2, ?_, a6, a7⟩
    have a4b : 0 ≤ read_row (hosc.Q ph) (row_steps (hosc.template ph) n).st.NewestRow
        (hosc.past_row_lookback ph ih jh) := a4
    have a5b : read_row (hosc.Q ph) (row_steps (hosc.template ph) n).st.NewestRow
        (hosc.past_row_lookback ph ih jh) < hosc.Q ph := a5
    rw [read_result, if_pos ⟨a4b, a5b, hc.1, hc.2⟩]
    exact Option.some_ne_none _

/-- Witness of C20 at the parameters written in the two sources, after `n = 13`
row encodings, with `(i, j) = (2, 0)` (basic) and `(1, 2)` (generalized), the
pairs whose lookback distance is `Q`. -/
theorem ring_buffer_indices_in_bounds_witness :
    ((∀ B : Nat, run (gsc.template gsc.compiled) B
        = row_steps (gsc.template gsc.compiled) (B * gsc.compiled.S.toNat)) ∧
      0 ≤ (row_steps (gsc.template gsc.compiled) 13).st.NewestRow ∧
      (row_steps (gsc.template gsc.compiled) 13).st.NewestRow < gsc.Q gsc.compiled ∧
      0 ≤ (row_steps (gsc.template gsc.compiled) 13).st.NewestRow + 1
          - gsc.past_row_lookback gsc.compiled 2 0 + gsc.Q gsc.compiled ∧
      0 ≤ read_row (gsc.Q gsc.compiled)
          (row_steps (gsc.template gsc.compiled) 13).st.NewestRow
          (gsc.past_row_lookback gsc.compiled 2 0) ∧
      read_row (gsc.Q gsc.compiled)
          (row_steps (gsc.template gsc.compiled) 13).st.NewestRow
          (gsc.past_row_lookback gsc.compiled 2 0) < gsc.Q gsc.compiled ∧
      0 ≤ gsc.past_col gsc.compiled 2 0 ∧ gsc.past_col gsc.compiled 2 0 < gsc.compiled.S ∧
      read_result (gsc.Q gsc.compiled) gsc.compiled.S
          (row_steps (gsc.template gsc.compiled) 13).st
          (gsc.past_row_lookback gsc.compiled 2 0) (gsc.past_col gsc.compiled 2 0) ≠ none ∧
      0 ≤ advance (gsc.Q gsc.compiled)
          (row_steps (gsc.template gsc.compiled) 13).st.NewestRow ∧
      advance (gsc.Q gsc.compiled)
          (row_steps (gsc.template gsc.compiled) 13).st.NewestRow < gsc.Q gsc.compiled) ∧
    ((∀ B : Nat, run (hosc.template hosc.compiled) B
        = row_steps (hosc.template hosc.compiled) (B * hosc.compiled.T.toNat)) ∧
      0 ≤ (row_steps (hosc.template hosc.compiled) 13).st.NewestRow ∧
      (row_steps (hosc.template hosc.compiled) 13).st.NewestRow < hosc.Q hosc.compiled ∧
      0 ≤ (row_steps (hosc.template hosc.compiled) 13).st.NewestRow + 1
          - hosc.past_row_lookback hosc.compiled 1 2 + hosc.Q hosc.compiled ∧
      0 ≤ read_row (hosc.Q hosc.compiled)
          (row_steps (hosc.template hosc.compiled) 13).st.NewestRow
          (hosc.past_row_lookback hosc.compiled 1 2) ∧
      read_row (hosc.Q hosc.compiled)
          (row_steps (hosc.template hosc.compiled) 13).st.NewestRow
          (hosc.past_row_lookback hosc.compiled 1 2) < hosc.Q hosc.compiled ∧
      0 ≤ hosc.past_col hosc.compiled 1 2 ∧
      hosc.past_col hosc.compiled 1 2 < hosc.compiled.L * hosc.compiled.T ∧
      read_result (hosc.Q hosc.compiled) (hosc.compiled.L * hosc.compiled.T)
          (row_steps (hosc.template hosc.compiled) 13).st
          (hosc.past_row_lookback hosc.compiled 1 2) (hosc.past_col hosc.compiled 1 2)
        ≠ none ∧
      0 ≤ advance (hosc.Q hosc.compiled)
          (row_steps (hosc.template hosc.compiled) 13).st.NewestRow ∧
      advance (hosc.Q hosc.compiled)
          (row_steps (hosc.template hosc.compiled) 13).st.NewestRow
        < hosc.Q hosc.compiled) :=
  ring_buffer_indices_in_bounds gsc.compiled (by decide) 2 0 (by decide) (by decide)
    (by decide) (by decide) hosc.compiled (by decide) 1 2 (by decide) (by decide)
    (by decide) (by decide) 13

end Staircase
